import Mathlib

/-!
Verification development for the DistriChat routing and caching core.

The Go sources are embedded shallowly:

* `ring` package (consistent hash ring, `part_000`): `HashRing`, `addNode`,
  `removeNode`, `getNode`, `getNodes`.  The paired Go `map` + sorted slice is
  modelled by association lists with unique keys plus the sorted virtual-node
  list; `sort.Slice` is modelled by a sort on the hash (the Go sort is
  unstable, but no property below depends on the order of hash ties), and
  `sort.Search` on the sorted slice is modelled by its contract, the least
  index whose hash is ≥ the target.
* `cache` package (two-tier LRU, `part_002`): `HierarchicalCache` with each
  tier's Go `map[string]*cacheEntry` + `container/list` LRU list modelled as
  one association list in recency order (front = most recently used); the two
  Go structures always hold exactly the same keys.  The unbounded `for` loops
  in `addToL1`/`addToL2` are given an explicit fuel argument; a call that
  would not terminate in Go returns `none` for every fuel.
* `client` package (`cmd/client/client.go`): `SmartClient` with the network
  modelled as an oracle assigning an RPC outcome and a dial result to each
  address.

Go `int` fields that take part in comparisons against possibly negative
values (capacities, configuration) are modelled as `Int`; monotonically
increasing counters and lengths are `Nat`.  `time.Now()` is an explicit
`now : Nat` argument.  Overflow of 64-bit counters is not modelled; no claim
below depends on it.
-/

/-! ## CRC32 (Go `hash/crc32.ChecksumIEEE`) -/

/-- Reflected IEEE polynomial used by Go's `crc32.ChecksumIEEE`. -/
def crc32Poly : Nat := 0xEDB88320

/-- One bit step of the reflected CRC32: shift right, conditionally xor. -/
def crc32Round (c : Nat) : Nat :=
  if c % 2 = 1 then (c / 2) ^^^ crc32Poly else c / 2

/-- Iterate `crc32Round`. -/
def crc32Rounds : Nat → Nat → Nat
  | 0, c => c
  | k + 1, c => crc32Rounds k (crc32Round c)

/-- Absorb one byte into the CRC state. -/
def crc32Byte (c b : Nat) : Nat := crc32Rounds 8 (c ^^^ (b % 256))

/-- Byte sequence of a string.  Identifiers in this system are ASCII, where
Unicode code points coincide with the UTF-8 bytes Go hashes. -/
def strBytes (s : String) : List Nat := s.data.map (fun ch => ch.toNat)

/-- Go `hashKey`: `crc32.ChecksumIEEE([]byte(key))`. -/
def hashKey (s : String) : Nat :=
  ((strBytes s).foldl crc32Byte 0xFFFFFFFF) ^^^ 0xFFFFFFFF

/-! ## Association-list maps (Go `map`) -/

/-- Lookup in a Go map modelled as an association list. -/
def lookupAssoc {α : Type} (l : List (String × α)) (k : String) : Option α :=
  (l.find? (fun p => p.1 == k)).map (fun p => p.2)

/-- Go `delete(m, k)`: with unique keys, filtering out the key removes
exactly the one entry. -/
def eraseAssoc {α : Type} (l : List (String × α)) (k : String) : List (String × α) :=
  l.filter (fun p => p.1 != k)

/-- Replace the value stored at a key (Go pointer update of a map entry). -/
def updateAssoc {α : Type} (l : List (String × α)) (k : String) (v : α) :
    List (String × α) :=
  l.map (fun p => if p.1 = k then (p.1, v) else p)

/-! ## Ring data model (`part_000`) -/

/-- Go `VirtualNode`. -/
structure VirtualNode where
  hash : Nat
  nodeID : String
  vnodeIdx : Nat
deriving DecidableEq, Repr

/-- Go `HashRing` (the `sync.RWMutex` guards the sequential semantics
modelled here). -/
structure HashRing where
  nodes : List VirtualNode
  nodeCapacity : List (String × Int)
  nodeAddress : List (String × String)
  replicas : Int
deriving DecidableEq, Repr

/-- Go `NewHashRing`. -/
def newHashRing (replicas : Int) : HashRing :=
  ⟨[], [], [], if replicas < 1 then 100 else replicas⟩

/-- Go `virtualNodeKey`: `fmt.Sprintf` of `id`, `#`, index. -/
def virtualNodeKey (nodeID : String) (vNodeIdx : Nat) : String :=
  nodeID ++ ("#") ++ toString vNodeIdx

/-- Go `sort.Slice(hr.nodes, by Hash <)`: an in-place unstable sort by hash.
Modelled by insertion sort, which likewise produces a hash-sorted
permutation of its input; no property below depends on the order of hash
ties, which Go leaves unspecified. -/
def sortByHash (l : List VirtualNode) : List VirtualNode :=
  List.insertionSort (fun a b => a.hash ≤ b.hash) l

/-- Go `HashRing.AddNode`. -/
def addNode (r : HashRing) (nodeID : String) (capacity : Int) (address : String) :
    HashRing :=
  if (lookupAssoc r.nodeCapacity nodeID).isSome then r
  else
    let cap := if capacity < 1 then r.replicas else capacity
    let newVNodes := (List.range cap.toNat).map
      (fun i => VirtualNode.mk (hashKey (virtualNodeKey nodeID i)) nodeID i)
    { r with
      nodes := sortByHash (r.nodes ++ newVNodes),
      nodeCapacity := r.nodeCapacity ++ [(nodeID, cap)],
      nodeAddress := r.nodeAddress ++ [(nodeID, address)] }

/-- Go `HashRing.RemoveNode`. -/
def removeNode (r : HashRing) (nodeID : String) : HashRing :=
  if (lookupAssoc r.nodeCapacity nodeID).isSome then
    { r with
      nodes := r.nodes.filter (fun v => v.nodeID != nodeID),
      nodeCapacity := eraseAssoc r.nodeCapacity nodeID,
      nodeAddress := eraseAssoc r.nodeAddress nodeID }
  else r

/-- Placeholder element for in-range `List.getD` indexing (never selected:
every index used below is taken modulo the list length). -/
def defaultVNode : VirtualNode := ⟨0, (""), 0⟩

/-- Index at which Go `sort.Search` lands, then wrapped to 0 past the end.
`sort.Search` returns the least index whose hash is ≥ the target on the
sorted slice, which on a list is `findIdx`. -/
def ringStartIdx (r : HashRing) (h : Nat) : Nat :=
  let idx0 := r.nodes.findIdx (fun v => decide (h ≤ v.hash))
  if r.nodes.length ≤ idx0 then 0 else idx0

/-- Go `HashRing.GetNode`: primary owner lookup, `none` when the ring is
empty (Go `ok=false`).  A missing address map entry reads as `""` in Go. -/
def getNode (r : HashRing) (key : String) : Option (String × String) :=
  if r.nodes.length = 0 then none
  else
    let idx := ringStartIdx r (hashKey key)
    let v := r.nodes.getD idx defaultVNode
    some (v.nodeID, (lookupAssoc r.nodeAddress v.nodeID).getD (""))

/-- Go `NodeInfo`. -/
structure NodeInfo where
  nodeID : String
  address : String
deriving DecidableEq, Repr

/-- Body of the collection loop in Go `HashRing.GetNodes`: walk the offsets
in `is` clockwise from `startIdx`, appending each previously unseen owner
while fewer than `count` owners are collected.  The accumulator is kept
reversed (Go appends; we cons and reverse at the end); the Go `seen` set is
exactly the set of owners already in the accumulator. -/
def collectNodes (r : HashRing) (startIdx : Nat) (count : Int) :
    List Nat → List NodeInfo → List NodeInfo
  | [], acc => acc.reverse
  | i :: is, acc =>
    if (acc.length : Int) < count then
      let v := r.nodes.getD ((startIdx + i) % r.nodes.length) defaultVNode
      if (acc.map (fun x => x.nodeID)).contains v.nodeID then
        collectNodes r startIdx count is acc
      else
        collectNodes r startIdx count is
          (NodeInfo.mk v.nodeID ((lookupAssoc r.nodeAddress v.nodeID).getD ("")) :: acc)
    else collectNodes r startIdx count is acc

/-- Go `HashRing.GetNodes`: ordered distinct owners for failover. -/
def getNodes (r : HashRing) (key : String) (count : Int) : List NodeInfo :=
  if r.nodes.length = 0 then []
  else collectNodes r (ringStartIdx r (hashKey key)) count
    (List.range r.nodes.length) []

/-- Go `HashRing.GetNodeCount`. -/
def getNodeCount (r : HashRing) : Nat := r.nodeCapacity.length

/-- Ring mutation requests, for reachability of ring states. -/
inductive RingOp where
  | addNodeOp (nodeID : String) (capacity : Int) (address : String)
  | removeNodeOp (nodeID : String)
deriving DecidableEq, Repr

/-- Apply one ring mutation (ring operations are total). -/
def applyRingOp (r : HashRing) : RingOp → HashRing
  | RingOp.addNodeOp id cap addr => addNode r id cap addr
  | RingOp.removeNodeOp id => removeNode r id

/-- Run a sequence of ring mutations. -/
def runRingOps (r : HashRing) (ops : List RingOp) : HashRing :=
  ops.foldl applyRingOp r

/-- Ring states produced by the public constructor and mutations. -/
def RingReachable (r : HashRing) : Prop :=
  ∃ replicas ops, r = runRingOps (newHashRing replicas) ops

/-- Physical node ids registered in the ring (capacity map keys). -/
def ringKeys (r : HashRing) : List String := r.nodeCapacity.map (fun p => p.1)

/-- Structural invariant of reachable rings: capacity keys are unique, every
virtual node belongs to a registered physical node, every registered node
owns at least one virtual node, and the default replica count is ≥ 1. -/
def RingInv (r : HashRing) : Prop :=
  (ringKeys r).Nodup ∧
  (∀ v ∈ r.nodes, v.nodeID ∈ ringKeys r) ∧
  (∀ id ∈ ringKeys r, ∃ v ∈ r.nodes, v.nodeID = id) ∧
  1 ≤ r.replicas

/-! ## Cache data model (`part_002`) -/

/-- Go `Message` (`time.Time` as an abstract tick). -/
structure Message where
  content : String
  senderID : String
  timestamp : Nat
deriving DecidableEq, Repr

/-- Go `ChatSession`. -/
structure ChatSession where
  chatID : String
  messages : List Message
  lastAccessed : Nat
  createdAt : Nat
  messageCount : Nat
deriving DecidableEq, Repr

/-- Go `CacheLevel`. -/
inductive CacheLevel where
  | levelUnknown
  | levelL1
  | levelL2
  | levelMiss
deriving DecidableEq, Repr

/-- Go `CacheStats`. -/
structure CacheStats where
  totalRequests : Nat
  cacheHits : Nat
  cacheMisses : Nat
  l1Hits : Nat
  l2Hits : Nat
  evictions : Nat
  demotions : Nat
deriving DecidableEq, Repr

/-- Zero-initialised statistics of a fresh cache. -/
def CacheStats.zero : CacheStats := ⟨0, 0, 0, 0, 0, 0, 0⟩

/-- Go `HierarchicalCache`.  Each tier's map + LRU list pair is one
association list in recency order, front = most recently used. -/
structure HierarchicalCache where
  l1 : List (String × ChatSession)
  l2 : List (String × ChatSession)
  l1Capacity : Int
  l2Capacity : Int
  stats : CacheStats
  serverID : String
deriving DecidableEq, Repr

/-- Go `NewHierarchicalCache`: no validation of the capacities. -/
def newHierarchicalCache (serverID : String) (l1Capacity l2Capacity : Int) :
    HierarchicalCache :=
  ⟨[], [], l1Capacity, l2Capacity, CacheStats.zero, serverID⟩

/-- Construction error taxonomy of the specification (§7). -/
inductive CacheError where
  | capacityInvalid
deriving DecidableEq, Repr

/-- Constructor written after the WORDS OF THE SPECIFICATION, for comparison
with the source constructor `newHierarchicalCache`: §7 lists
`CapacityInvalid — Cache construction with cap1 ≤ 0` and §4.2 says
`cap1 == 0` is rejected at construction.  The source performs no such
check. -/
def newHierarchicalCacheSpec (serverID : String) (l1Capacity l2Capacity : Int) :
    Except CacheError HierarchicalCache :=
  if l1Capacity ≤ 0 then Except.error CacheError.capacityInvalid
  else Except.ok (newHierarchicalCache serverID l1Capacity l2Capacity)

/-- Keys held by a tier (identical for the Go map and its LRU list). -/
def keysOf (l : List (String × ChatSession)) : List String :=
  l.map (fun p => p.1)

/-- Session stored under a key, if any. -/
def lookupEntry (l : List (String × ChatSession)) (id : String) : Option ChatSession :=
  lookupAssoc l id

/-- Remove a key's entry (Go `list.Remove` of the stored element plus map
`delete`; keys are unique in every reachable state). -/
def removeEntry (l : List (String × ChatSession)) (id : String) :
    List (String × ChatSession) :=
  l.filter (fun p => p.1 != id)

/-- Go `evictFromL2`: drop the L2 LRU entry outright; no-op on an empty
tier. -/
def evictFromL2 (c : HierarchicalCache) : HierarchicalCache :=
  match c.l2.getLast? with
  | none => c
  | some _ =>
    { c with
      l2 := c.l2.dropLast,
      stats := { c.stats with evictions := c.stats.evictions + 1 } }

/-- The `for len(l2Cache) >= l2Capacity` loop of Go `addToL2`, with fuel.
In Go the loop exits only when the guard fails; exhausted fuel (`none`)
models an execution that never reaches that point. -/
def addToL2Loop (fuel : Nat) (c : HierarchicalCache) : Option HierarchicalCache :=
  if (c.l2.length : Int) < c.l2Capacity then some c
  else
    match fuel with
    | 0 => none
    | fuel' + 1 => addToL2Loop fuel' (evictFromL2 c)

/-- Go `addToL2`: make room, then push at L2 front. -/
def addToL2 (fuel : Nat) (chatID : String) (session : ChatSession)
    (c : HierarchicalCache) : Option HierarchicalCache :=
  (addToL2Loop fuel c).map (fun c' => { c' with l2 := (chatID, session) :: c'.l2 })

/-- Go `demoteFromL1`: move the L1 LRU entry to the front of L2; no-op on an
empty L1. -/
def demoteFromL1 (fuel : Nat) (c : HierarchicalCache) : Option HierarchicalCache :=
  match c.l1.getLast? with
  | none => some c
  | some e =>
    addToL2 fuel e.1 e.2
      { c with
        l1 := c.l1.dropLast,
        stats := { c.stats with demotions := c.stats.demotions + 1 } }

/-- The `for len(l1Cache) >= l1Capacity` loop of Go `addToL1`, with fuel. -/
def addToL1Loop (fuel : Nat) (c : HierarchicalCache) : Option HierarchicalCache :=
  if (c.l1.length : Int) < c.l1Capacity then some c
  else
    match fuel with
    | 0 => none
    | fuel' + 1 => (demoteFromL1 fuel' c).bind (fun c' => addToL1Loop fuel' c')

/-- Go `addToL1`: make room, then push at L1 front. -/
def addToL1 (fuel : Nat) (chatID : String) (session : ChatSession)
    (c : HierarchicalCache) : Option HierarchicalCache :=
  (addToL1Loop fuel c).map (fun c' => { c' with l1 := (chatID, session) :: c'.l1 })

/-- Go `GetOrCreate`.  Returns the post-state and the level reported to the
caller; `none` models a call that never returns (unbounded demotion or
eviction loop). -/
def getOrCreate (fuel : Nat) (now : Nat) (chatID : String) (c : HierarchicalCache) :
    Option (HierarchicalCache × CacheLevel) :=
  let c0 := { c with stats := { c.stats with totalRequests := c.stats.totalRequests + 1 } }
  match lookupEntry c0.l1 chatID with
  | some session =>
    let session' := { session with lastAccessed := now }
    some ({ c0 with
      stats := { c0.stats with
        cacheHits := c0.stats.cacheHits + 1,
        l1Hits := c0.stats.l1Hits + 1 },
      l1 := (chatID, session') :: removeEntry c0.l1 chatID }, CacheLevel.levelL1)
  | none =>
    match lookupEntry c0.l2 chatID with
    | some session =>
      let session' := { session with lastAccessed := now }
      let c1 := { c0 with
        stats := { c0.stats with
          cacheHits := c0.stats.cacheHits + 1,
          l2Hits := c0.stats.l2Hits + 1 },
        l2 := removeEntry c0.l2 chatID }
      (addToL1 fuel chatID session' c1).map (fun c2 => (c2, CacheLevel.levelL2))
    | none =>
      let c1 := { c0 with
        stats := { c0.stats with cacheMisses := c0.stats.cacheMisses + 1 } }
      let session : ChatSession := ⟨chatID, [], now, now, 0⟩
      (addToL1 fuel chatID session c1).map (fun c2 => (c2, CacheLevel.levelMiss))

/-- The append performed by Go `AddMessage` on the shared `*ChatSession`. -/
def appendToSession (msg : Message) (now : Nat) (s : ChatSession) : ChatSession :=
  { s with
    messages := s.messages ++ [msg],
    messageCount := s.messageCount + 1,
    lastAccessed := now }

/-- Apply an update to the session stored under a key, wherever it resides.
Go mutates the `*ChatSession` returned by `GetOrCreate` in place; right
after `GetOrCreate` that pointer is the entry stored for `chatID`. -/
def updateSessionEverywhere (id : String) (f : ChatSession → ChatSession)
    (c : HierarchicalCache) : HierarchicalCache :=
  { c with
    l1 := c.l1.map (fun p => if p.1 = id then (p.1, f p.2) else p),
    l2 := c.l2.map (fun p => if p.1 = id then (p.1, f p.2) else p) }

/-- Go `AddMessage`: `GetOrCreate`, then append under the same lock cycle. -/
def addMessage (fuel : Nat) (now : Nat) (chatID : String) (msg : Message)
    (c : HierarchicalCache) : Option (HierarchicalCache × CacheLevel) :=
  (getOrCreate fuel now chatID c).map
    (fun r => (updateSessionEverywhere chatID (appendToSession msg now) r.1, r.2))

/-- Go `GetSession`: read-only residency probe. -/
def getSession (c : HierarchicalCache) (chatID : String) :
    Option (ChatSession × CacheLevel) :=
  match lookupEntry c.l1 chatID with
  | some s => some (s, CacheLevel.levelL1)
  | none =>
    match lookupEntry c.l2 chatID with
    | some s => some (s, CacheLevel.levelL2)
    | none => none

/-- Go `Clear`: drop both tiers, keep the statistics. -/
def clear (c : HierarchicalCache) : HierarchicalCache :=
  { c with l1 := [], l2 := [] }

/-- Ids of the L1 tier in LRU-list order, front (most recent) first: what
the spec says `Snapshot` returns, and what Go `DebugPrint` walks. -/
def l1Ids (c : HierarchicalCache) : List String := keysOf c.l1

/-- Ids of the L2 tier in LRU-list order, front first. -/
def l2Ids (c : HierarchicalCache) : List String := keysOf c.l2

/-- Go `CacheInfo`. -/
structure CacheInfo where
  l1Size : Nat
  l1Capacity : Int
  l2Size : Nat
  l2Capacity : Int
  l1Chats : List String
  l2Chats : List String
  stats : CacheStats
deriving DecidableEq, Repr

/-- Go `GetCacheInfo` with the id lists supplied explicitly: the Go code
builds `L1Chats`/`L2Chats` by `range` over the tier MAPS, whose iteration
order the Go specification leaves undefined (and the runtime randomises), so
the embedding takes the two enumerations as parameters. -/
def getCacheInfoWith (c : HierarchicalCache) (o1 o2 : List String) : CacheInfo :=
  ⟨c.l1.length, c.l1Capacity, c.l2.length, c.l2Capacity, o1, o2, c.stats⟩

/-- The possible results of Go `GetCacheInfo`: a map `range` enumerates each
key exactly once in some order, i.e. the id lists are exactly the
permutations of each tier's key set. -/
def admissibleCacheInfo (c : HierarchicalCache) (info : CacheInfo) : Prop :=
  ∃ o1 o2, o1.Perm (l1Ids c) ∧ o2.Perm (l2Ids c) ∧ info = getCacheInfoWith c o1 o2

/-- Public cache operations, for reachability. -/
inductive CacheOp where
  | getOrCreateOp (now : Nat) (chatID : String)
  | addMessageOp (now : Nat) (chatID : String) (msg : Message)
  | getSessionOp (chatID : String)
  | clearOp
deriving DecidableEq, Repr

/-- Apply one public operation to the cache state. -/
def applyOp (fuel : Nat) : CacheOp → HierarchicalCache → Option HierarchicalCache
  | CacheOp.getOrCreateOp now id, c => (getOrCreate fuel now id c).map (fun r => r.1)
  | CacheOp.addMessageOp now id m, c => (addMessage fuel now id m c).map (fun r => r.1)
  | CacheOp.getSessionOp _, c => some c
  | CacheOp.clearOp, c => some (clear c)

/-- Run a sequence of public operations. -/
def runOps (fuel : Nat) : List CacheOp → HierarchicalCache → Option HierarchicalCache
  | [], c => some c
  | op :: ops, c => (applyOp fuel op c).bind (runOps fuel ops)

/-- Cache states reachable from `c0` through completed public operations. -/
def Reachable (c0 c : HierarchicalCache) : Prop :=
  ∃ fuel ops, runOps fuel ops c0 = some c

/-- Every sequence of public operations issued against `c0` completes. -/
def TerminatesAll (c0 : HierarchicalCache) : Prop :=
  ∀ ops : List CacheOp, ∃ fuel, (runOps fuel ops c0).isSome

/-- Size bounds of the two tiers.  A tier that can never legally receive an
entry (negative capacity) stays empty, which the disjunct records without
presupposing a non-negative capacity. -/
def SizeInv (c : HierarchicalCache) : Prop :=
  ((c.l1.length : Int) ≤ c.l1Capacity ∨ c.l1 = []) ∧
  ((c.l2.length : Int) ≤ c.l2Capacity ∨ c.l2 = [])

/-- Key uniqueness per tier and disjointness across tiers. -/
def KeysInv (c : HierarchicalCache) : Prop :=
  (keysOf c.l1).Nodup ∧ (keysOf c.l2).Nodup ∧
  ∀ id ∈ keysOf c.l1, ¬ id ∈ keysOf c.l2

/-- Every resident session's `messageCount` equals its message list
length. -/
def SessionInv (c : HierarchicalCache) : Prop :=
  ∀ p ∈ c.l1 ++ c.l2, p.2.messageCount = p.2.messages.length

/-- Counter consistency: `hits = l1Hits + l2Hits`,
`totalRequests = hits + misses`. -/
def CounterInv (c : HierarchicalCache) : Prop :=
  c.stats.cacheHits = c.stats.l1Hits + c.stats.l2Hits ∧
  c.stats.totalRequests = c.stats.cacheHits + c.stats.cacheMisses

/-- Combined cache invariant. -/
def CacheInv (c : HierarchicalCache) : Prop :=
  SizeInv c ∧ KeysInv c ∧ SessionInv c ∧ CounterInv c

/-! ## Client data model (`cmd/client/client.go`) -/

/-- Observable outcome of one `PostMessage` RPC to an address. -/
inductive AttemptOutcome where
  | transportError (msg : String)
  | response (success : Bool) (errorMessage : String)
deriving DecidableEq, Repr

/-- The fields of Go `pb.ChatResponse` the routing loop inspects. -/
structure ChatResponse where
  success : Bool
  errorMessage : String
deriving DecidableEq, Repr

/-- Go `serverConnection` (`conn`/`client` pointers collapse to the flag
`hasClient`). -/
structure ServerConnection where
  address : String
  hasClient : Bool
  healthy : Bool
deriving DecidableEq, Repr

/-- Go `ClientStats`. -/
structure ClientStats where
  totalRequests : Nat
  successRequests : Nat
  failedRequests : Nat
  failoverCount : Nat
  primaryHits : Nat
deriving DecidableEq, Repr

/-- Go `ClientConfig` (timeouts are real time, outside the model). -/
structure ClientConfig where
  virtualNodes : Int
  maxRetries : Int
deriving DecidableEq, Repr

/-- Go `SmartClient`. -/
structure SmartClient where
  ring : HashRing
  connections : List (String × ServerConnection)
  config : ClientConfig
  stats : ClientStats
deriving Repr

/-- Deterministic network oracle for one `SendMessage` call: RPC outcome and
dial result per address. -/
structure NetworkEnv where
  rpc : String → AttemptOutcome
  dial : String → Bool

/-- Go `markConnectionUnhealthy`: flip `healthy` to false if the address has
a connection entry. -/
def markConnectionUnhealthy (c : SmartClient) (address : String) : SmartClient :=
  { c with connections := (c.connections.map
      (fun p => if p.1 = address then (p.1, { p.2 with healthy := false }) else p)) }

/-- Go `sendToServer`: connection lookup, simulated-down check, lazy
reconnect, then the RPC itself.  Errors model a non-nil Go `error`. -/
def sendToServer (env : NetworkEnv) (c : SmartClient) (address : String) :
    SmartClient × Except String ChatResponse :=
  match lookupAssoc c.connections address with
  | none => (c, Except.error (("no connection to ") ++ address))
  | some conn =>
    if conn.healthy = false then
      (c, Except.error (("server ") ++ address ++ (" is marked as down")))
    else if conn.hasClient then
      match env.rpc address with
      | AttemptOutcome.transportError m => (c, Except.error m)
      | AttemptOutcome.response ok msg => (c, Except.ok ⟨ok, msg⟩)
    else if env.dial address then
      let conn' : ServerConnection := { conn with hasClient := true, healthy := true }
      let c' := { c with connections := updateAssoc c.connections address conn' }
      match env.rpc address with
      | AttemptOutcome.transportError m => (c', Except.error m)
      | AttemptOutcome.response ok msg => (c', Except.ok ⟨ok, msg⟩)
    else (c, Except.error (("failed to connect to ") ++ address))

/-- The failover loop of Go `SendMessage`.  `i` is the attempt index,
`lastErr` the retained Go `lastErr` (`none` when the last attempt returned a
response with `success=false`, mirroring `lastErr = err` with a nil error).
After EVERY failed attempt the loop runs `markConnectionUnhealthy`. -/
def sendLoop (env : NetworkEnv) :
    List NodeInfo → SmartClient → Option String → Nat →
    SmartClient × Except String ChatResponse
  | [], c, lastErr, _ =>
    ({ c with stats := { c.stats with failedRequests := c.stats.failedRequests + 1 } },
     Except.error (("all servers exhausted: ") ++ lastErr.getD ("")))
  | node :: rest, c, _lastErr, i =>
    match sendToServer env c node.address with
    | (c1, Except.ok resp) =>
      if resp.success then
        let s1 := { c1.stats with successRequests := c1.stats.successRequests + 1 }
        let s2 :=
          if i = 0 then { s1 with primaryHits := s1.primaryHits + 1 }
          else { s1 with failoverCount := s1.failoverCount + 1 }
        ({ c1 with stats := s2 }, Except.ok resp)
      else
        sendLoop env rest (markConnectionUnhealthy c1 node.address) none (i + 1)
    | (c1, Except.error e) =>
      sendLoop env rest (markConnectionUnhealthy c1 node.address) (some e) (i + 1)

/-- Go `SendMessage`: count the request, route via the ring, run the
failover loop. -/
def sendMessage (env : NetworkEnv) (c : SmartClient)
    (chatID _senderID _message : String) : SmartClient × Except String ChatResponse :=
  let c0 := { c with stats := { c.stats with totalRequests := c.stats.totalRequests + 1 } }
  let nodes := getNodes c0.ring chatID c0.config.maxRetries
  if nodes.isEmpty then
    ({ c0 with stats := { c0.stats with failedRequests := c0.stats.failedRequests + 1 } },
     Except.error ("no servers available"))
  else sendLoop env nodes c0 none 0

/-- Health flag currently recorded for an address. -/
def healthOf (c : SmartClient) (address : String) : Option Bool :=
  (lookupAssoc c.connections address).map (fun conn => conn.healthy)

/-- The request/hit/miss counters, which the tier-maintenance helpers
(`demoteFromL1`, `evictFromL2` and their loops) never touch. -/
def CoreStatsEq (s s' : CacheStats) : Prop :=
  s'.totalRequests = s.totalRequests ∧ s'.cacheHits = s.cacheHits ∧
  s'.cacheMisses = s.cacheMisses ∧ s'.l1Hits = s.l1Hits ∧ s'.l2Hits = s.l2Hits

/-- Invariant carried through the demotion loop: key uniqueness and
disjointness, session counts, and the L2 size bound. -/
def MidInv (c : HierarchicalCache) : Prop :=
  KeysInv c ∧ SessionInv c ∧ ((c.l2.length : Int) ≤ c.l2Capacity ∨ c.l2 = [])

/-- Decidability of the ring invariant, for concrete witnesses. -/
instance (r : HashRing) : Decidable (RingInv r) := by
  unfold RingInv
  infer_instance

/-- Decidability of the size invariant. -/
instance (c : HierarchicalCache) : Decidable (SizeInv c) := by
  unfold SizeInv
  infer_instance

/-- Decidability of the key invariant. -/
instance (c : HierarchicalCache) : Decidable (KeysInv c) := by
  unfold KeysInv
  infer_instance

/-- Decidability of the session invariant. -/
instance (c : HierarchicalCache) : Decidable (SessionInv c) := by
  unfold SessionInv
  infer_instance

/-- Decidability of the counter invariant. -/
instance (c : HierarchicalCache) : Decidable (CounterInv c) := by
  unfold CounterInv
  infer_instance

/-- Decidability of the combined cache invariant. -/
instance (c : HierarchicalCache) : Decidable (CacheInv c) := by
  unfold CacheInv
  infer_instance

/-- A concrete reachable cache state holding one message. -/
def cacheW8 : HierarchicalCache :=
  HierarchicalCache.mk
    [(("a"), ChatSession.mk ("a") [Message.mk ("hi") ("u") 0] 0 0 1)] [] 2 3
    (CacheStats.mk 1 0 1 0 0 0 0) ("s")

/-- A concrete reachable two-node ring used to exercise the successor
lookup theorems. -/
def ringW7 : HashRing :=
  runRingOps (newHashRing 1)
    [RingOp.addNodeOp ("a") 1 ("xa"), RingOp.addNodeOp ("b") 1 ("xb")]

/-- One-server environment whose RPC always answers with a well-formed
response carrying `success = false`. -/
def envW2 : NetworkEnv :=
  ⟨fun _ => AttemptOutcome.response false ("rejected"), fun _ => false⟩

/-- A live connection (dialled, marked healthy). -/
def connW2 : ServerConnection := ⟨("xa"), true, true⟩

/-- One-node ring for the client counterexample. -/
def ringW2 : HashRing := runRingOps (newHashRing 1) [RingOp.addNodeOp ("a") 1 ("xa")]

/-- Client with one registered, healthy connection to `xa`. -/
def clientX2 : SmartClient := ⟨ringW2, [(("xa"), connW2)], ⟨100, 3⟩, ⟨0, 0, 0, 0, 0⟩⟩

/-- A reachable cache whose L1 LRU list is `b` before `a` (two misses). -/
def cacheX1 : HierarchicalCache :=
  (runOps 1 [CacheOp.getOrCreateOp 0 ("a"), CacheOp.getOrCreateOp 0 ("b")]
    (newHierarchicalCache ("s") 2 3)).getD (newHierarchicalCache ("s") 2 3)

/-- A snapshot of `cacheX1` whose L1 id list enumerates the L1 map in the
order `a`, `b`. -/
def infoX1 : CacheInfo := getCacheInfoWith cacheX1 [("a"), ("b")] []

/-!
End of the definitions.  Everything below is a theorem about the embedding
above: first general helper lemmas, then per-component lemmas, then one
theorem per specification claim (with a witness where the theorem has
hypotheses).
-/

/-- A key is absent from an association list iff `lookupAssoc` misses. -/
theorem lookupAssoc_eq_none_iff {α : Type} (l : List (String × α)) (k : String) :
    lookupAssoc l k = none ↔ k ∉ l.map (fun p => p.1) := by
  unfold lookupAssoc
  rw [Option.map_eq_none', List.find?_eq_none]
  simp only [List.mem_map, beq_iff_eq, not_exists]
  aesop

/-- `lookupAssoc` hits iff the key is present. -/
theorem lookupAssoc_isSome_iff {α : Type} (l : List (String × α)) (k : String) :
    (lookupAssoc l k).isSome = true ↔ k ∈ l.map (fun p => p.1) := by
  cases h : lookupAssoc l k with
  | none => simpa using (lookupAssoc_eq_none_iff l k).mp h
  | some v =>
    simp only [Option.isSome_some, true_iff]
    by_contra hk
    rw [(lookupAssoc_eq_none_iff l k).mpr hk] at h
    cases h

/-- A found entry belongs to the list and carries the searched key. -/
theorem lookupAssoc_eq_some {α : Type} {l : List (String × α)} {k : String} {v : α}
    (h : lookupAssoc l k = some v) : (k, v) ∈ l := by
  unfold lookupAssoc at h
  rw [Option.map_eq_some'] at h
  obtain ⟨p, hp, hv⟩ := h
  have hk := List.find?_some hp
  have hmem := List.mem_of_find?_eq_some hp
  simp only [beq_iff_eq] at hk
  have : p = (k, v) := by
    cases p
    simp only [Prod.mk.injEq]
    exact ⟨hk, hv⟩
  rw [this] at hmem
  exact hmem

/-- `CoreStatsEq` is reflexive. -/
theorem coreStatsEq_refl (s : CacheStats) : CoreStatsEq s s :=
  ⟨rfl, rfl, rfl, rfl, rfl⟩

/-- `CoreStatsEq` is transitive. -/
theorem coreStatsEq_trans {a b c : CacheStats}
    (h : CoreStatsEq a b) (h' : CoreStatsEq b c) : CoreStatsEq a c := by
  obtain ⟨h1, h2, h3, h4, h5⟩ := h
  obtain ⟨g1, g2, g3, g4, g5⟩ := h'
  exact ⟨g1.trans h1, g2.trans h2, g3.trans h3, g4.trans h4, g5.trans h5⟩

/-- `evictFromL2` leaves L1, the capacities, the identity and the request
counters unchanged, and shortens L2 by dropping its last entry. -/
theorem evictFromL2_spec (c : HierarchicalCache) :
    (evictFromL2 c).l1 = c.l1 ∧
    (evictFromL2 c).l1Capacity = c.l1Capacity ∧
    (evictFromL2 c).l2Capacity = c.l2Capacity ∧
    (evictFromL2 c).serverID = c.serverID ∧
    CoreStatsEq c.stats (evictFromL2 c).stats ∧
    (evictFromL2 c).stats.demotions = c.stats.demotions ∧
    (evictFromL2 c).l2 = c.l2.dropLast := by
  unfold evictFromL2
  cases h : c.l2.getLast? with
  | none =>
    have h2 : c.l2 = [] := List.getLast?_eq_none_iff.mp h
    exact ⟨rfl, rfl, rfl, rfl, coreStatsEq_refl _, rfl, by rw [h2]; rfl⟩
  | some e =>
    exact ⟨rfl, rfl, rfl, rfl, coreStatsEq_refl _, rfl, rfl⟩

/-- Successful runs of the L2 eviction loop leave L1, the capacities, the
identity, the request counters and the demotion counter unchanged, and turn
L2 into a prefix of the old L2 of length strictly below the capacity. -/
theorem addToL2Loop_spec {fuel : Nat} {c c' : HierarchicalCache}
    (h : addToL2Loop fuel c = some c') :
    c'.l1 = c.l1 ∧ c'.l1Capacity = c.l1Capacity ∧ c'.l2Capacity = c.l2Capacity ∧
    c'.serverID = c.serverID ∧ CoreStatsEq c.stats c'.stats ∧
    c'.stats.demotions = c.stats.demotions ∧
    (∃ k, c'.l2 = c.l2.take k) ∧ (c'.l2.length : Int) < c.l2Capacity := by
  induction fuel generalizing c with
  | zero =>
    rw [addToL2Loop] at h
    split at h
    next hlt =>
      cases h
      exact ⟨rfl, rfl, rfl, rfl, coreStatsEq_refl _, rfl,
        ⟨_, (List.take_length _).symm⟩, hlt⟩
    next => cases h
  | succ n ih =>
    rw [addToL2Loop] at h
    split at h
    next hlt =>
      cases h
      exact ⟨rfl, rfl, rfl, rfl, coreStatsEq_refl _, rfl,
        ⟨_, (List.take_length _).symm⟩, hlt⟩
    next =>
      obtain ⟨h1, h2, h3, h4, h5, h6, ⟨k, hk⟩, h8⟩ := ih h
      obtain ⟨e1, e2, e3, e4, e5, e6, e7⟩ := evictFromL2_spec c
      refine ⟨h1.trans e1, h2.trans e2, h3.trans e3, h4.trans e4,
        coreStatsEq_trans e5 h5, h6.trans e6, ⟨min k (c.l2.length - 1), ?_⟩, ?_⟩
      · rw [hk, e7, List.dropLast_eq_take, List.take_take]
      · rw [← e3]
        exact h8

/-- With a non-positive L2 capacity the eviction loop guard never fails, so
the loop never exits: the Go code spins forever. -/
theorem addToL2Loop_none :
    ∀ (fuel : Nat) (c : HierarchicalCache), c.l2Capacity ≤ 0 →
      addToL2Loop fuel c = none := by
  intro fuel
  induction fuel with
  | zero =>
    intro c h
    rw [addToL2Loop]
    split
    next hlt => exact absurd hlt (by omega)
    next => rfl
  | succ n ih =>
    intro c h
    rw [addToL2Loop]
    split
    next hlt => exact absurd hlt (by omega)
    next =>
      apply ih
      obtain ⟨-, -, e3, -⟩ := evictFromL2_spec c
      rw [e3]
      exact h

/-- Characterisation of a successful `demoteFromL1`: capacities, identity
and request counters are preserved, and either L1 was empty (no-op) or its
last entry moved to the front of an L2 prefix that fits the capacity. -/
theorem demoteFromL1_spec {fuel : Nat} {c c' : HierarchicalCache}
    (h : demoteFromL1 fuel c = some c') :
    c'.l1Capacity = c.l1Capacity ∧ c'.l2Capacity = c.l2Capacity ∧
    c'.serverID = c.serverID ∧ CoreStatsEq c.stats c'.stats ∧
    ((c.l1 = [] ∧ c' = c) ∨
      (c.l1 ≠ [] ∧ c'.l1 = c.l1.dropLast ∧
        ∃ e k, c.l1.getLast? = some e ∧ c'.l2 = e :: c.l2.take k ∧
          (c'.l2.length : Int) ≤ c.l2Capacity)) := by
  rw [demoteFromL1] at h
  cases hl : c.l1.getLast? with
  | none =>
    rw [hl] at h
    cases h
    exact ⟨rfl, rfl, rfl, coreStatsEq_refl _,
      Or.inl ⟨List.getLast?_eq_none_iff.mp hl, rfl⟩⟩
  | some e =>
    rw [hl] at h
    unfold addToL2 at h
    rw [Option.map_eq_some'] at h
    obtain ⟨cL, hloop, hc'⟩ := h
    obtain ⟨g1, g2, g3, g4, g5, g6, ⟨k, hk⟩, g8⟩ := addToL2Loop_spec hloop
    have hne : c.l1 ≠ [] := by
      intro hemp
      rw [hemp] at hl
      cases hl
    subst hc'
    have g8' : ((cL.l2.length : Int) < c.l2Capacity) := g8
    refine ⟨g2, g3, g4, g5, Or.inr ⟨hne, g1, e, k, rfl, ?_, ?_⟩⟩
    · show e :: cL.l2 = e :: c.l2.take k
      rw [hk]
    · show (((e :: cL.l2).length : Int) ≤ c.l2Capacity)
      rw [List.length_cons]
      omega

/-- With a non-positive L1 capacity the demotion loop guard never fails, so
the loop never exits: the Go code spins forever. -/
theorem addToL1Loop_none :
    ∀ (fuel : Nat) (c : HierarchicalCache), c.l1Capacity ≤ 0 →
      addToL1Loop fuel c = none := by
  intro fuel
  induction fuel with
  | zero =>
    intro c h
    rw [addToL1Loop]
    split
    next hlt => exact absurd hlt (by omega)
    next => rfl
  | succ n ih =>
    intro c h
    rw [addToL1Loop]
    split
    next hlt => exact absurd hlt (by omega)
    next =>
      cases hd : demoteFromL1 n c with
      | none => rfl
      | some c1 =>
        obtain ⟨g1, -, -, -, -⟩ := demoteFromL1_spec hd
        show addToL1Loop n c1 = none
        apply ih
        rw [g1]
        exact h

/-- One extra unit of fuel cannot change a successful run of the eviction
loop. -/
theorem addToL2Loop_succ {fuel : Nat} :
    ∀ {c c' : HierarchicalCache}, addToL2Loop fuel c = some c' →
      addToL2Loop (fuel + 1) c = some c' := by
  induction fuel with
  | zero =>
    intro c c' h
    rw [addToL2Loop] at h
    rw [addToL2Loop]
    split at h
    next hlt => rw [if_pos hlt]; exact h
    next => cases h
  | succ n ih =>
    intro c c' h
    rw [addToL2Loop] at h
    rw [addToL2Loop]
    split at h
    next hlt => rw [if_pos hlt]; exact h
    next hge => rw [if_neg hge]; exact ih h

/-- One extra unit of fuel cannot change a successful demotion. -/
theorem demoteFromL1_succ {fuel : Nat} {c c' : HierarchicalCache}
    (h : demoteFromL1 fuel c = some c') : demoteFromL1 (fuel + 1) c = some c' := by
  rw [demoteFromL1] at h
  rw [demoteFromL1]
  cases hl : c.l1.getLast? with
  | none =>
    rw [hl] at h
    exact h
  | some e =>
    rw [hl] at h
    unfold addToL2 at h
    unfold addToL2
    dsimp only
    dsimp only at h
    rw [Option.map_eq_some'] at h
    obtain ⟨cL, hloop, hc'⟩ := h
    rw [addToL2Loop_succ hloop, Option.map_some']
    rw [hc']

/-- One extra unit of fuel cannot change a successful run of the demotion
loop. -/
theorem addToL1Loop_succ {fuel : Nat} :
    ∀ {c c' : HierarchicalCache}, addToL1Loop fuel c = some c' →
      addToL1Loop (fuel + 1) c = some c' := by
  induction fuel with
  | zero =>
    intro c c' h
    rw [addToL1Loop] at h
    rw [addToL1Loop]
    split at h
    next hlt => rw [if_pos hlt]; exact h
    next => cases h
  | succ n ih =>
    intro c c' h
    rw [addToL1Loop] at h
    rw [addToL1Loop]
    split at h
    next hlt => rw [if_pos hlt]; exact h
    next hge =>
      rw [if_neg hge]
      cases hd : demoteFromL1 n c with
      | none =>
        rw [hd] at h
        exact absurd h (by simp)
      | some c1 =>
        rw [hd] at h
        have h' : addToL1Loop n c1 = some c' := h
        rw [demoteFromL1_succ hd]
        show addToL1Loop (n + 1) c1 = some c'
        exact ih h' 

/-- Fuel monotonicity, abstracted over any fuel-indexed partial function
whose successful runs survive one extra unit of fuel. -/
theorem fuelMono {A B : Type}
    (F : Nat → A → Option B)
    (step : ∀ (n : Nat) (x : A) (r : B), F n x = some r → F (n + 1) x = some r) :
    ∀ (m n : Nat) (x : A) (r : B), m ≤ n → F m x = some r → F n x = some r := by
  intro m n x r h hm
  induction n, h using Nat.le_induction with
  | base => exact hm
  | succ n _ ih => exact step n x r ih

/-- Fuel monotonicity for the eviction loop. -/
theorem addToL2Loop_mono {m n : Nat} {c c' : HierarchicalCache}
    (h : m ≤ n) (hm : addToL2Loop m c = some c') : addToL2Loop n c = some c' :=
  fuelMono addToL2Loop (fun _ _ _ hs => addToL2Loop_succ hs) m n c c' h hm

/-- Fuel monotonicity for demotion. -/
theorem demoteFromL1_mono {m n : Nat} {c c' : HierarchicalCache}
    (h : m ≤ n) (hm : demoteFromL1 m c = some c') : demoteFromL1 n c = some c' :=
  fuelMono demoteFromL1 (fun _ _ _ hs => demoteFromL1_succ hs) m n c c' h hm

/-- Fuel monotonicity for the demotion loop. -/
theorem addToL1Loop_mono {m n : Nat} {c c' : HierarchicalCache}
    (h : m ≤ n) (hm : addToL1Loop m c = some c') : addToL1Loop n c = some c' :=
  fuelMono addToL1Loop (fun _ _ _ hs => addToL1Loop_succ hs) m n c c' h hm

/-- With a positive L2 capacity the eviction loop always exits: each spin
removes one entry and the guard fails at the latest on the empty tier. -/
theorem addToL2Loop_exists :
    ∀ (n : Nat) (c : HierarchicalCache), c.l2.length ≤ n → 1 ≤ c.l2Capacity →
      ∃ c', addToL2Loop n c = some c' := by
  intro n
  induction n with
  | zero =>
    intro c hlen hcap
    refine ⟨c, ?_⟩
    rw [addToL2Loop]
    rw [if_pos ?_]
    have : c.l2.length = 0 := Nat.le_zero.mp hlen
    omega
  | succ n ih =>
    intro c hlen hcap
    rw [addToL2Loop]
    by_cases hlt : (c.l2.length : Int) < c.l2Capacity
    · exact ⟨c, if_pos hlt⟩
    · rw [if_neg hlt]
      obtain ⟨-, -, e3, -, -, -, e7⟩ := evictFromL2_spec c
      have hne : c.l2 ≠ [] := by
        intro hemp
        rw [hemp] at hlt
        exact hlt (by simpa using hcap)
      have hlen' : (evictFromL2 c).l2.length ≤ n := by
        rw [e7, List.length_dropLast]
        have : c.l2.length ≠ 0 := fun h0 => hne (List.length_eq_zero.mp h0)
        omega
      exact ih (evictFromL2 c) hlen' (by rw [e3]; exact hcap)

/-- With a positive L2 capacity a demotion always completes for some
fuel. -/
theorem demoteFromL1_exists (c : HierarchicalCache) (hcap : 1 ≤ c.l2Capacity) :
    ∃ fuel c', demoteFromL1 fuel c = some c' := by
  cases hl : c.l1.getLast? with
  | none =>
    refine ⟨0, c, ?_⟩
    rw [demoteFromL1, hl]
  | some e =>
    obtain ⟨c1, hc1⟩ := addToL2Loop_exists c.l2.length
      (HierarchicalCache.mk c.l1.dropLast c.l2 c.l1Capacity c.l2Capacity
        (CacheStats.mk c.stats.totalRequests c.stats.cacheHits c.stats.cacheMisses
          c.stats.l1Hits c.stats.l2Hits c.stats.evictions (c.stats.demotions + 1))
        c.serverID)
      (le_refl c.l2.length) hcap
    refine ⟨c.l2.length, HierarchicalCache.mk c1.l1 ((e.1, e.2) :: c1.l2)
      c1.l1Capacity c1.l2Capacity c1.stats c1.serverID, ?_⟩
    rw [demoteFromL1, hl]
    show (addToL2Loop c.l2.length
        (HierarchicalCache.mk c.l1.dropLast c.l2 c.l1Capacity c.l2Capacity
          (CacheStats.mk c.stats.totalRequests c.stats.cacheHits c.stats.cacheMisses
            c.stats.l1Hits c.stats.l2Hits c.stats.evictions (c.stats.demotions + 1))
          c.serverID)).map
      (fun c' => HierarchicalCache.mk c'.l1 ((e.1, e.2) :: c'.l2)
        c'.l1Capacity c'.l2Capacity c'.stats c'.serverID) =
      some (HierarchicalCache.mk c1.l1 ((e.1, e.2) :: c1.l2)
        c1.l1Capacity c1.l2Capacity c1.stats c1.serverID)
    rw [hc1, Option.map_some']

/-- With positive capacities the demotion loop always completes for some
fuel: every spin shortens L1 by one entry, and each inner eviction loop
exits because the L2 capacity is positive. -/
theorem addToL1Loop_exists :
    ∀ (n : Nat) (c : HierarchicalCache), c.l1.length ≤ n →
      1 ≤ c.l1Capacity → 1 ≤ c.l2Capacity →
      ∃ fuel c', addToL1Loop fuel c = some c' := by
  intro n
  induction n with
  | zero =>
    intro c hlen hcap1 _
    refine ⟨0, c, ?_⟩
    rw [addToL1Loop, if_pos ?_]
    have h0 : c.l1.length = 0 := Nat.le_zero.mp hlen
    omega
  | succ n ih =>
    intro c hlen hcap1 hcap2
    by_cases hlt : (c.l1.length : Int) < c.l1Capacity
    · exact ⟨0, c, by rw [addToL1Loop, if_pos hlt]⟩
    · obtain ⟨f1, c1, hd⟩ := demoteFromL1_exists c hcap2
      obtain ⟨e1, e2, -, -, hcases⟩ := demoteFromL1_spec hd
      have hne : c.l1 ≠ [] := by
        intro hemp
        rw [hemp] at hlt
        exact hlt (by simpa using hcap1)
      rcases hcases with ⟨hemp, -⟩ | ⟨-, hl1, -⟩
      · exact absurd hemp hne
      · have hlen1 : c1.l1.length ≤ n := by
          rw [hl1, List.length_dropLast]
          have hnz : c.l1.length ≠ 0 := fun h0 => hne (List.length_eq_zero.mp h0)
          omega
        obtain ⟨f2, c', hloop⟩ :=
          ih c1 hlen1 (by rw [e1]; exact hcap1) (by rw [e2]; exact hcap2)
        refine ⟨max f1 f2 + 1, c', ?_⟩
        rw [addToL1Loop, if_neg hlt]
        rw [demoteFromL1_mono (Nat.le_max_left f1 f2) hd]
        show addToL1Loop (max f1 f2) c1 = some c'
        exact addToL1Loop_mono (Nat.le_max_right f1 f2) hloop

/-- Keys of a filtered tier: membership. -/
theorem mem_keys_removeEntry {l : List (String × ChatSession)} {id id' : String} :
    id' ∈ keysOf (removeEntry l id) ↔ id' ∈ keysOf l ∧ id' ≠ id := by
  simp only [keysOf, removeEntry, List.mem_map, List.mem_filter, bne_iff_ne]
  constructor
  · rintro ⟨p, ⟨hp, hne⟩, hk⟩
    exact ⟨⟨p, hp, hk⟩, hk ▸ hne⟩
  · rintro ⟨⟨p, hp, hk⟩, hne⟩
    exact ⟨p, ⟨hp, hk ▸ hne⟩, hk⟩

/-- Removing an entry preserves key uniqueness. -/
theorem nodup_keys_removeEntry {l : List (String × ChatSession)} {id : String}
    (h : (keysOf l).Nodup) : (keysOf (removeEntry l id)).Nodup := by
  unfold keysOf removeEntry
  unfold keysOf at h
  exact List.Nodup.sublist ((List.filter_sublist l).map (fun p => p.1)) h

/-- Entries of a filtered tier come from the tier. -/
theorem mem_of_mem_removeEntry {l : List (String × ChatSession)} {id : String}
    {p : String × ChatSession} (h : p ∈ removeEntry l id) : p ∈ l :=
  (List.filter_sublist l).subset h

/-- Keys of a take-prefix come from the tier's keys. -/
theorem mem_keys_take {l : List (String × ChatSession)} {k : Nat} {id : String}
    (h : id ∈ keysOf (l.take k)) : id ∈ keysOf l := by
  simp only [keysOf, List.mem_map] at h ⊢
  obtain ⟨p, hp, hk⟩ := h
  exact ⟨p, List.take_subset k l hp, hk⟩

/-- A take-prefix preserves key uniqueness. -/
theorem nodup_keys_take {l : List (String × ChatSession)} {k : Nat}
    (h : (keysOf l).Nodup) : (keysOf (l.take k)).Nodup := by
  unfold keysOf
  unfold keysOf at h
  exact List.Nodup.sublist ((List.take_sublist k l).map (fun p => p.1)) h

/-- Keys of a dropLast-prefix come from the tier's keys. -/
theorem mem_keys_dropLast {l : List (String × ChatSession)} {id : String}
    (h : id ∈ keysOf l.dropLast) : id ∈ keysOf l := by
  simp only [keysOf, List.mem_map] at h ⊢
  obtain ⟨p, hp, hk⟩ := h
  exact ⟨p, List.dropLast_subset l hp, hk⟩

/-- dropLast preserves key uniqueness. -/
theorem nodup_keys_dropLast {l : List (String × ChatSession)}
    (h : (keysOf l).Nodup) : (keysOf l.dropLast).Nodup := by
  unfold keysOf
  unfold keysOf at h
  exact List.Nodup.sublist ((List.dropLast_sublist l).map (fun p => p.1)) h

/-- The key of a tier's last entry is outside the keys of the rest. -/
theorem getLast_key_not_mem_dropLast {l : List (String × ChatSession)}
    {e : String × ChatSession} (hl : l.getLast? = some e)
    (h : (keysOf l).Nodup) : ¬ e.1 ∈ keysOf l.dropLast := by
  have hne : l ≠ [] := by
    intro hemp
    rw [hemp] at hl
    cases hl
  have hsplit : l.dropLast ++ [l.getLast hne] = l := List.dropLast_concat_getLast hne
  have hge : l.getLast hne = e := by
    have := List.getLast?_eq_getLast l hne
    rw [this] at hl
    cases hl
    rfl
  intro hmem
  rw [← hsplit, hge] at h
  unfold keysOf at h hmem
  rw [List.map_append] at h
  have hdisj := (List.nodup_append.mp h).2.2
  exact hdisj hmem (by simp)

/-- The last entry of a tier belongs to the tier. -/
theorem getLast_mem_of_getLast? {l : List (String × ChatSession)}
    {e : String × ChatSession} (hl : l.getLast? = some e) : e ∈ l :=
  List.mem_of_getLast?_eq_some hl

/-- Keys of a cons. -/
theorem keysOf_cons (p : String × ChatSession) (l : List (String × ChatSession)) :
    keysOf (p :: l) = p.1 :: keysOf l := rfl

/-- A successful demotion preserves the mid-operation invariant, and the
keys of the resulting tiers come from the old tiers. -/
theorem demoteFromL1_midInv {fuel : Nat} {c c' : HierarchicalCache}
    (hInv : MidInv c) (h : demoteFromL1 fuel c = some c') :
    MidInv c' ∧ (∀ id ∈ keysOf c'.l1, id ∈ keysOf c.l1) ∧
      (∀ id ∈ keysOf c'.l2, id ∈ keysOf c.l1 ∨ id ∈ keysOf c.l2) := by
  obtain ⟨hKeys, hSess, hSize⟩ := hInv
  obtain ⟨hN1, hN2, hDisj⟩ := hKeys
  obtain ⟨d1, d2, d3, d4, dcase⟩ := demoteFromL1_spec h
  rcases dcase with ⟨-, hceq⟩ | ⟨hne, hl1, e, k, hl, hl2, hlen⟩
  · subst hceq
    exact ⟨⟨⟨hN1, hN2, hDisj⟩, hSess, hSize⟩,
      fun id hid => hid, fun id hid => Or.inr hid⟩
  · have heMem : e ∈ c.l1 := getLast_mem_of_getLast? hl
    have heKey : e.1 ∈ keysOf c.l1 := by
      unfold keysOf
      exact List.mem_map.mpr ⟨e, heMem, rfl⟩
    have heNotDrop : ¬ e.1 ∈ keysOf c.l1.dropLast :=
      getLast_key_not_mem_dropLast hl hN1
    have heNotL2 : ¬ e.1 ∈ keysOf c.l2 := hDisj e.1 heKey
    constructor
    · refine ⟨⟨?_, ?_, ?_⟩, ?_, ?_⟩
      · rw [hl1]
        exact nodup_keys_dropLast hN1
      · rw [hl2, keysOf_cons, List.nodup_cons]
        exact ⟨fun hmem => heNotL2 (mem_keys_take hmem), nodup_keys_take hN2⟩
      · intro id hid
        rw [hl1] at hid
        rw [hl2, keysOf_cons]
        intro hmem
        rcases List.mem_cons.mp hmem with heq | htake
        · exact heNotDrop (heq ▸ hid)
        · exact hDisj id (mem_keys_dropLast hid) (mem_keys_take htake)
      · intro p hp
        rcases List.mem_append.mp hp with hp1 | hp2
        · rw [hl1] at hp1
          exact hSess p (List.mem_append.mpr (Or.inl (List.dropLast_subset _ hp1)))
        · rw [hl2] at hp2
          rcases List.mem_cons.mp hp2 with rfl | htake
          · exact hSess p (List.mem_append.mpr (Or.inl heMem))
          · exact hSess p (List.mem_append.mpr (Or.inr (List.take_subset _ _ htake)))
      · left
        rw [d2]
        exact hlen
    · constructor
      · intro id hid
        rw [hl1] at hid
        exact mem_keys_dropLast hid
      · intro id hid
        rw [hl2, keysOf_cons] at hid
        rcases List.mem_cons.mp hid with heq | htake
        · exact Or.inl (heq ▸ heKey)
        · exact Or.inr (mem_keys_take htake)

/-- The demotion loop preserves the mid-operation invariant, and the keys of
the resulting tiers come from the old tiers. -/
theorem addToL1Loop_midInv {fuel : Nat} :
    ∀ {c c' : HierarchicalCache}, MidInv c → addToL1Loop fuel c = some c' →
      MidInv c' ∧ (∀ id ∈ keysOf c'.l1, id ∈ keysOf c.l1) ∧
        (∀ id ∈ keysOf c'.l2, id ∈ keysOf c.l1 ∨ id ∈ keysOf c.l2) := by
  induction fuel with
  | zero =>
    intro c c' hInv h
    rw [addToL1Loop] at h
    split at h
    next =>
      cases h
      exact ⟨hInv, fun id hid => hid, fun id hid => Or.inr hid⟩
    next => cases h
  | succ n ih =>
    intro c c' hInv h
    rw [addToL1Loop] at h
    split at h
    next =>
      cases h
      exact ⟨hInv, fun id hid => hid, fun id hid => Or.inr hid⟩
    next =>
      cases hd : demoteFromL1 n c with
      | none =>
        rw [hd] at h
        exact absurd h (by simp)
      | some c1 =>
        rw [hd] at h
        have h' : addToL1Loop n c1 = some c' := h
        obtain ⟨hInv1, hsub1, hsub2⟩ := demoteFromL1_midInv hInv hd
        obtain ⟨hInv', gsub1, gsub2⟩ := ih hInv1 h'
        refine ⟨hInv', fun id hid => hsub1 id (gsub1 id hid), fun id hid => ?_⟩
        rcases gsub2 id hid with h1 | h2
        · exact Or.inl (hsub1 id h1)
        · exact hsub2 id h2

/-- Exit conditions of the demotion loop: capacities, identity and request
counters survive, and the final L1 is strictly below capacity. -/
theorem addToL1Loop_statsSpec {fuel : Nat} :
    ∀ {c c' : HierarchicalCache}, addToL1Loop fuel c = some c' →
      c'.l1Capacity = c.l1Capacity ∧ c'.l2Capacity = c.l2Capacity ∧
      c'.serverID = c.serverID ∧ CoreStatsEq c.stats c'.stats ∧
      (c'.l1.length : Int) < c.l1Capacity := by
  induction fuel with
  | zero =>
    intro c c' h
    rw [addToL1Loop] at h
    split at h
    next hlt =>
      cases h
      exact ⟨rfl, rfl, rfl, coreStatsEq_refl _, hlt⟩
    next => cases h
  | succ n ih =>
    intro c c' h
    rw [addToL1Loop] at h
    split at h
    next hlt =>
      cases h
      exact ⟨rfl, rfl, rfl, coreStatsEq_refl _, hlt⟩
    next =>
      cases hd : demoteFromL1 n c with
      | none =>
        rw [hd] at h
        exact absurd h (by simp)
      | some c1 =>
        rw [hd] at h
        have h' : addToL1Loop n c1 = some c' := h
        obtain ⟨d1, d2, d3, d4, -⟩ := demoteFromL1_spec hd
        obtain ⟨i1, i2, i3, i4, i5⟩ := ih h'
        refine ⟨i1.trans d1, i2.trans d2, i3.trans d3,
          coreStatsEq_trans d4 i4, ?_⟩
        rw [← d1]
        exact i5

/-- Branch equation: `GetOrCreate` on an L1 hit. -/
theorem getOrCreate_l1_eq {fuel now : Nat} {chatID : String} {c : HierarchicalCache}
    {session : ChatSession} (h1 : lookupEntry c.l1 chatID = some session) :
    getOrCreate fuel now chatID c = some
      (HierarchicalCache.mk
        ((chatID, ChatSession.mk session.chatID session.messages now
          session.createdAt session.messageCount) :: removeEntry c.l1 chatID)
        c.l2 c.l1Capacity c.l2Capacity
        (CacheStats.mk (c.stats.totalRequests + 1) (c.stats.cacheHits + 1)
          c.stats.cacheMisses (c.stats.l1Hits + 1) c.stats.l2Hits
          c.stats.evictions c.stats.demotions)
        c.serverID, CacheLevel.levelL1) := by
  unfold getOrCreate
  dsimp only
  rw [h1]

/-- Branch equation: `GetOrCreate` on an L2 hit (promotion). -/
theorem getOrCreate_l2_eq {fuel now : Nat} {chatID : String} {c : HierarchicalCache}
    {session : ChatSession} (h1 : lookupEntry c.l1 chatID = none)
    (h2 : lookupEntry c.l2 chatID = some session) :
    getOrCreate fuel now chatID c =
      (addToL1 fuel chatID
        (ChatSession.mk session.chatID session.messages now
          session.createdAt session.messageCount)
        (HierarchicalCache.mk c.l1 (removeEntry c.l2 chatID)
          c.l1Capacity c.l2Capacity
          (CacheStats.mk (c.stats.totalRequests + 1) (c.stats.cacheHits + 1)
            c.stats.cacheMisses c.stats.l1Hits (c.stats.l2Hits + 1)
            c.stats.evictions c.stats.demotions)
          c.serverID)).map (fun c2 => (c2, CacheLevel.levelL2)) := by
  unfold getOrCreate
  dsimp only
  rw [h1, h2]

/-- Branch equation: `GetOrCreate` on a miss. -/
theorem getOrCreate_miss_eq {fuel now : Nat} {chatID : String} {c : HierarchicalCache}
    (h1 : lookupEntry c.l1 chatID = none) (h2 : lookupEntry c.l2 chatID = none) :
    getOrCreate fuel now chatID c =
      (addToL1 fuel chatID (ChatSession.mk chatID [] now now 0)
        (HierarchicalCache.mk c.l1 c.l2 c.l1Capacity c.l2Capacity
          (CacheStats.mk (c.stats.totalRequests + 1) c.stats.cacheHits
            (c.stats.cacheMisses + 1) c.stats.l1Hits c.stats.l2Hits
            c.stats.evictions c.stats.demotions)
          c.serverID)).map (fun c2 => (c2, CacheLevel.levelMiss)) := by
  unfold getOrCreate
  dsimp only
  rw [h1, h2]

/-- A missing key, in terms of `lookupEntry`. -/
theorem lookupEntry_none_iff {l : List (String × ChatSession)} {id : String} :
    lookupEntry l id = none ↔ ¬ id ∈ keysOf l := by
  unfold lookupEntry keysOf
  exact lookupAssoc_eq_none_iff l id

/-- A hit returns an entry of the tier. -/
theorem lookupEntry_some_mem {l : List (String × ChatSession)} {id : String}
    {s : ChatSession} (h : lookupEntry l id = some s) : (id, s) ∈ l :=
  lookupAssoc_eq_some h

/-- A hit key is among the tier's keys. -/
theorem lookupEntry_some_key {l : List (String × ChatSession)} {id : String}
    {s : ChatSession} (h : lookupEntry l id = some s) : id ∈ keysOf l := by
  unfold keysOf
  exact List.mem_map.mpr ⟨(id, s), lookupEntry_some_mem h, rfl⟩

/-- Removing a present key strictly shrinks the tier. -/
theorem removeEntry_length_lt {l : List (String × ChatSession)} {id : String}
    (h : id ∈ keysOf l) : (removeEntry l id).length < l.length := by
  unfold keysOf at h
  obtain ⟨p, hp, hk⟩ := List.mem_map.mp h
  have hle := List.length_filter_le (fun p => p.1 != id) l
  rcases Nat.lt_or_ge (removeEntry l id).length l.length with hlt | hge
  · exact hlt
  · exfalso
    have heq : (removeEntry l id).length = l.length := Nat.le_antisymm hle hge
    have hall := List.filter_length_eq_length.mp heq p hp
    rw [bne_iff_ne] at hall
    exact hall hk

/-- Pushing a fresh, well-counted session at the L1 front of a state whose
L1 is strictly below capacity yields the structural invariants. -/
theorem pushL1_inv {cL : HierarchicalCache} {chatID : String} {session : ChatSession}
    (hKeys : KeysInv cL) (hSess : SessionInv cL)
    (hL2 : (cL.l2.length : Int) ≤ cL.l2Capacity ∨ cL.l2 = [])
    (hlen : (cL.l1.length : Int) < cL.l1Capacity)
    (h1 : ¬ chatID ∈ keysOf cL.l1) (h2 : ¬ chatID ∈ keysOf cL.l2)
    (hs : session.messageCount = session.messages.length) :
    SizeInv (HierarchicalCache.mk ((chatID, session) :: cL.l1) cL.l2
        cL.l1Capacity cL.l2Capacity cL.stats cL.serverID) ∧
    KeysInv (HierarchicalCache.mk ((chatID, session) :: cL.l1) cL.l2
        cL.l1Capacity cL.l2Capacity cL.stats cL.serverID) ∧
    SessionInv (HierarchicalCache.mk ((chatID, session) :: cL.l1) cL.l2
        cL.l1Capacity cL.l2Capacity cL.stats cL.serverID) := by
  obtain ⟨hN1, hN2, hDisj⟩ := hKeys
  refine ⟨⟨?_, hL2⟩, ⟨?_, hN2, ?_⟩, ?_⟩
  · left
    show (((chatID, session) :: cL.l1).length : Int) ≤ cL.l1Capacity
    rw [List.length_cons]
    omega
  · show (keysOf ((chatID, session) :: cL.l1)).Nodup
    rw [keysOf_cons, List.nodup_cons]
    exact ⟨h1, hN1⟩
  · show ∀ id ∈ keysOf ((chatID, session) :: cL.l1), ¬ id ∈ keysOf cL.l2
    intro id hid
    rw [keysOf_cons] at hid
    rcases List.mem_cons.mp hid with heq | hmem
    · rw [heq]
      exact h2
    · exact hDisj id hmem
  · intro p hp
    rcases List.mem_append.mp hp with hp1 | hp2
    · rcases List.mem_cons.mp hp1 with rfl | hmem
      · exact hs
      · exact hSess p (List.mem_append.mpr (Or.inl hmem))
    · exact hSess p (List.mem_append.mpr (Or.inr hp2))

/-- `GetOrCreate` preserves the full cache invariant, keeps the capacities
and the identity, and registers exactly one request. -/
theorem getOrCreate_inv {fuel now : Nat} {chatID : String} {c : HierarchicalCache}
    {r : HierarchicalCache × CacheLevel} (hInv : CacheInv c)
    (h : getOrCreate fuel now chatID c = some r) :
    CacheInv r.1 ∧ r.1.l1Capacity = c.l1Capacity ∧ r.1.l2Capacity = c.l2Capacity ∧
    r.1.serverID = c.serverID ∧
    r.1.stats.totalRequests = c.stats.totalRequests + 1 := by
  obtain ⟨⟨hS1, hS2⟩, hKeys, hSess, hCnt⟩ := hInv
  obtain ⟨hN1, hN2, hDisj⟩ := hKeys
  obtain ⟨hC1, hC2⟩ := hCnt
  cases hx1 : lookupEntry c.l1 chatID with
  | some session =>
    rw [getOrCreate_l1_eq hx1] at h
    cases h
    have hkey : chatID ∈ keysOf c.l1 := lookupEntry_some_key hx1
    have hmem : (chatID, session) ∈ c.l1 := lookupEntry_some_mem hx1
    have hlenlt := removeEntry_length_lt hkey
    have hne : c.l1 ≠ [] := by
      intro hemp
      rw [hemp] at hkey
      simp [keysOf] at hkey
    have hlen1 : (c.l1.length : Int) ≤ c.l1Capacity := by
      rcases hS1 with hle | hemp
      · exact hle
      · exact absurd hemp hne
    refine ⟨⟨⟨?_, hS2⟩, ⟨?_, hN2, ?_⟩, ?_, ?_, ?_⟩, rfl, rfl, rfl, rfl⟩
    · left
      show ((((chatID, ChatSession.mk session.chatID session.messages now
          session.createdAt session.messageCount) ::
          removeEntry c.l1 chatID).length : Int) ≤ c.l1Capacity)
      rw [List.length_cons]
      omega
    · show (keysOf ((chatID, ChatSession.mk session.chatID session.messages now
        session.createdAt session.messageCount) :: removeEntry c.l1 chatID)).Nodup
      rw [keysOf_cons, List.nodup_cons]
      exact ⟨fun hm => (mem_keys_removeEntry.mp hm).2 rfl, nodup_keys_removeEntry hN1⟩
    · intro id hid
      rw [keysOf_cons] at hid
      rcases List.mem_cons.mp hid with heq | hm
      · rw [heq]
        exact hDisj chatID hkey
      · exact hDisj id (mem_keys_removeEntry.mp hm).1
    · intro p hp
      rcases List.mem_append.mp hp with hp1 | hp2
      · rcases List.mem_cons.mp hp1 with rfl | hm
        · exact hSess (chatID, session) (List.mem_append.mpr (Or.inl hmem))
        · exact hSess p (List.mem_append.mpr (Or.inl (mem_of_mem_removeEntry hm)))
      · exact hSess p (List.mem_append.mpr (Or.inr hp2))
    · show c.stats.cacheHits + 1 = (c.stats.l1Hits + 1) + c.stats.l2Hits
      omega
    · show c.stats.totalRequests + 1 = (c.stats.cacheHits + 1) + c.stats.cacheMisses
      omega
  | none =>
    have hchat1 : ¬ chatID ∈ keysOf c.l1 := lookupEntry_none_iff.mp hx1
    cases hx2 : lookupEntry c.l2 chatID with
    | some session =>
      rw [getOrCreate_l2_eq hx1 hx2] at h
      unfold addToL1 at h
      rw [Option.map_map] at h
      obtain ⟨cL, hloop, hr⟩ := Option.map_eq_some'.mp h
      subst hr
      dsimp only [Function.comp]
      have hkey2 : chatID ∈ keysOf c.l2 := lookupEntry_some_key hx2
      have hmem2 : (chatID, session) ∈ c.l2 := lookupEntry_some_mem hx2
      have hne2 : c.l2 ≠ [] := by
        intro hemp
        rw [hemp] at hkey2
        simp [keysOf] at hkey2
      have hlen2 : (c.l2.length : Int) ≤ c.l2Capacity := by
        rcases hS2 with hle | hemp
        · exact hle
        · exact absurd hemp hne2
      have hfilterle := List.length_filter_le (fun p => p.1 != chatID) c.l2
      have hMid : MidInv (HierarchicalCache.mk c.l1 (removeEntry c.l2 chatID)
          c.l1Capacity c.l2Capacity
          (CacheStats.mk (c.stats.totalRequests + 1) (c.stats.cacheHits + 1)
            c.stats.cacheMisses c.stats.l1Hits (c.stats.l2Hits + 1)
            c.stats.evictions c.stats.demotions)
          c.serverID) := by
        refine ⟨⟨hN1, nodup_keys_removeEntry hN2, ?_⟩, ?_, ?_⟩
        · intro id hid hm
          exact hDisj id hid (mem_keys_removeEntry.mp hm).1
        · intro p hp
          rcases List.mem_append.mp hp with hp1 | hp2
          · exact hSess p (List.mem_append.mpr (Or.inl hp1))
          · exact hSess p (List.mem_append.mpr (Or.inr (mem_of_mem_removeEntry hp2)))
        · left
          show (((removeEntry c.l2 chatID).length : Int) ≤ c.l2Capacity)
          unfold removeEntry
          omega
      obtain ⟨⟨hKeysL, hSessL, hL2L⟩, hsub1, hsub2⟩ := addToL1Loop_midInv hMid hloop
      obtain ⟨w1, w2, w3, w4, w5⟩ := addToL1Loop_statsSpec hloop
      obtain ⟨t1, t2, t3, t4, t5⟩ := w4
      dsimp only at t1 t2 t3 t4 t5 w1 w2 w3 w5 hsub1 hsub2
      have hfresh1 : ¬ chatID ∈ keysOf cL.l1 := fun hm => hchat1 (hsub1 chatID hm)
      have hfresh2 : ¬ chatID ∈ keysOf cL.l2 := by
        intro hm
        rcases hsub2 chatID hm with hin1 | hin2
        · exact hchat1 hin1
        · exact (mem_keys_removeEntry.mp hin2).2 rfl
      have hscount : (ChatSession.mk session.chatID session.messages now
          session.createdAt session.messageCount).messageCount =
          (ChatSession.mk session.chatID session.messages now
          session.createdAt session.messageCount).messages.length :=
        hSess (chatID, session) (List.mem_append.mpr (Or.inr hmem2))
      have hlt : (cL.l1.length : Int) < cL.l1Capacity := by
        rw [w1]
        exact w5
      obtain ⟨pS, pK, pSe⟩ := pushL1_inv hKeysL hSessL hL2L hlt hfresh1 hfresh2 hscount
      refine ⟨⟨pS, pK, pSe, ?_, ?_⟩, w1, w2, w3, t1⟩
      · show cL.stats.cacheHits = cL.stats.l1Hits + cL.stats.l2Hits
        omega
      · show cL.stats.totalRequests = cL.stats.cacheHits + cL.stats.cacheMisses
        omega
    | none =>
      rw [getOrCreate_miss_eq hx1 hx2] at h
      unfold addToL1 at h
      rw [Option.map_map] at h
      obtain ⟨cL, hloop, hr⟩ := Option.map_eq_some'.mp h
      subst hr
      dsimp only [Function.comp]
      have hchat2 : ¬ chatID ∈ keysOf c.l2 := lookupEntry_none_iff.mp hx2
      have hMid : MidInv (HierarchicalCache.mk c.l1 c.l2 c.l1Capacity c.l2Capacity
          (CacheStats.mk (c.stats.totalRequests + 1) c.stats.cacheHits
            (c.stats.cacheMisses + 1) c.stats.l1Hits c.stats.l2Hits
            c.stats.evictions c.stats.demotions)
          c.serverID) := ⟨⟨hN1, hN2, hDisj⟩, hSess, hS2⟩
      obtain ⟨⟨hKeysL, hSessL, hL2L⟩, hsub1, hsub2⟩ := addToL1Loop_midInv hMid hloop
      obtain ⟨w1, w2, w3, w4, w5⟩ := addToL1Loop_statsSpec hloop
      obtain ⟨t1, t2, t3, t4, t5⟩ := w4
      dsimp only at t1 t2 t3 t4 t5 w1 w2 w3 w5 hsub1 hsub2
      have hfresh1 : ¬ chatID ∈ keysOf cL.l1 := fun hm => hchat1 (hsub1 chatID hm)
      have hfresh2 : ¬ chatID ∈ keysOf cL.l2 := by
        intro hm
        rcases hsub2 chatID hm with hin1 | hin2
        · exact hchat1 hin1
        · exact hchat2 hin2
      have hlt : (cL.l1.length : Int) < cL.l1Capacity := by
        rw [w1]
        exact w5
      have h0 : (ChatSession.mk chatID [] now now 0).messageCount =
          (ChatSession.mk chatID [] now now 0).messages.length := rfl
      obtain ⟨pS, pK, pSe⟩ := pushL1_inv hKeysL hSessL hL2L hlt hfresh1 hfresh2 h0
      refine ⟨⟨pS, pK, pSe, ?_, ?_⟩, w1, w2, w3, t1⟩
      · show cL.stats.cacheHits = cL.stats.l1Hits + cL.stats.l2Hits
        omega
      · show cL.stats.totalRequests = cL.stats.cacheHits + cL.stats.cacheMisses
        omega

/-- A per-key session update never changes the keys of a tier. -/
theorem keysOf_updateMap (id : String) (f : ChatSession → ChatSession)
    (l : List (String × ChatSession)) :
    keysOf (l.map (fun p => if p.1 = id then (p.1, f p.2) else p)) = keysOf l := by
  unfold keysOf
  rw [List.map_map]
  apply List.map_congr_left
  intro p _
  by_cases hp : p.1 = id
  · simp [hp]
  · simp [hp]

/-- `updateSessionEverywhere` with a count-respecting update preserves the
invariant and everything else but the stored sessions. -/
theorem updateSession_inv {id : String} {f : ChatSession → ChatSession}
    (hf : ∀ s : ChatSession, s.messageCount = s.messages.length →
      (f s).messageCount = (f s).messages.length)
    {c : HierarchicalCache} (hInv : CacheInv c) :
    CacheInv (updateSessionEverywhere id f c) := by
  obtain ⟨⟨hS1, hS2⟩, ⟨hN1, hN2, hDisj⟩, hSess, hCnt⟩ := hInv
  refine ⟨⟨?_, ?_⟩, ⟨?_, ?_, ?_⟩, ?_, hCnt⟩
  · rcases hS1 with hle | hemp
    · left
      show ((c.l1.map (fun p => if p.1 = id then (p.1, f p.2) else p)).length : Int) ≤
        c.l1Capacity
      rw [List.length_map]
      exact hle
    · right
      show c.l1.map (fun p => if p.1 = id then (p.1, f p.2) else p) = []
      rw [hemp]
      rfl
  · rcases hS2 with hle | hemp
    · left
      show ((c.l2.map (fun p => if p.1 = id then (p.1, f p.2) else p)).length : Int) ≤
        c.l2Capacity
      rw [List.length_map]
      exact hle
    · right
      show c.l2.map (fun p => if p.1 = id then (p.1, f p.2) else p) = []
      rw [hemp]
      rfl
  · show (keysOf (c.l1.map (fun p => if p.1 = id then (p.1, f p.2) else p))).Nodup
    rw [keysOf_updateMap]
    exact hN1
  · show (keysOf (c.l2.map (fun p => if p.1 = id then (p.1, f p.2) else p))).Nodup
    rw [keysOf_updateMap]
    exact hN2
  · intro id' hid'
    rw [show keysOf (updateSessionEverywhere id f c).l1 =
      keysOf c.l1 from keysOf_updateMap id f c.l1] at hid'
    rw [show keysOf (updateSessionEverywhere id f c).l2 =
      keysOf c.l2 from keysOf_updateMap id f c.l2]
    exact hDisj id' hid'
  · intro p hp
    rcases List.mem_append.mp hp with hp1 | hp2
    · obtain ⟨q, hq, hpq⟩ := List.mem_map.mp hp1
      by_cases hqid : q.1 = id
      · rw [if_pos hqid] at hpq
        rw [← hpq]
        exact hf q.2 (hSess q (List.mem_append.mpr (Or.inl hq)))
      · rw [if_neg hqid] at hpq
        rw [← hpq]
        exact hSess q (List.mem_append.mpr (Or.inl hq))
    · obtain ⟨q, hq, hpq⟩ := List.mem_map.mp hp2
      by_cases hqid : q.1 = id
      · rw [if_pos hqid] at hpq
        rw [← hpq]
        exact hf q.2 (hSess q (List.mem_append.mpr (Or.inr hq)))
      · rw [if_neg hqid] at hpq
        rw [← hpq]
        exact hSess q (List.mem_append.mpr (Or.inr hq))

/-- The message append of `AddMessage` respects the count invariant. -/
theorem appendToSession_count (msg : Message) (now : Nat) :
    ∀ s : ChatSession, s.messageCount = s.messages.length →
      (appendToSession msg now s).messageCount =
        (appendToSession msg now s).messages.length := by
  intro s hs
  unfold appendToSession
  show s.messageCount + 1 = (s.messages ++ [msg]).length
  rw [List.length_append, hs]
  rfl

/-- `Clear` preserves the invariant (statistics are kept, tiers empty). -/
theorem clear_inv {c : HierarchicalCache} (hInv : CacheInv c) :
    CacheInv (clear c) := by
  obtain ⟨-, -, -, hCnt⟩ := hInv
  refine ⟨⟨Or.inr rfl, Or.inr rfl⟩, ⟨List.nodup_nil, List.nodup_nil, ?_⟩, ?_, hCnt⟩
  · intro id hid
    simp [keysOf, clear] at hid
  · intro p hp
    simp [clear] at hp

/-- Every public operation preserves the invariant and the configuration. -/
theorem applyOp_inv {fuel : Nat} {op : CacheOp} {c c' : HierarchicalCache}
    (hInv : CacheInv c) (h : applyOp fuel op c = some c') :
    CacheInv c' ∧ c'.l1Capacity = c.l1Capacity ∧ c'.l2Capacity = c.l2Capacity ∧
    c'.serverID = c.serverID := by
  cases op with
  | getOrCreateOp now id =>
    obtain ⟨r, hr, hc'⟩ := Option.map_eq_some'.mp h
    obtain ⟨hI, e1, e2, e3, -⟩ := getOrCreate_inv hInv hr
    subst hc'
    exact ⟨hI, e1, e2, e3⟩
  | addMessageOp now id msg =>
    obtain ⟨r, hr, hc'⟩ := Option.map_eq_some'.mp h
    unfold addMessage at hr
    obtain ⟨q, hq, hrq⟩ := Option.map_eq_some'.mp hr
    obtain ⟨hI, e1, e2, e3, -⟩ := getOrCreate_inv hInv hq
    subst hc'
    rw [← hrq]
    refine ⟨updateSession_inv (appendToSession_count msg now) hI, e1, e2, e3⟩
  | getSessionOp id =>
    cases h
    exact ⟨hInv, rfl, rfl, rfl⟩
  | clearOp =>
    cases h
    exact ⟨clear_inv hInv, rfl, rfl, rfl⟩

/-- Sequences of public operations preserve the invariant and the
configuration. -/
theorem runOps_inv {fuel : Nat} :
    ∀ {ops : List CacheOp} {c c' : HierarchicalCache}, CacheInv c →
      runOps fuel ops c = some c' →
      CacheInv c' ∧ c'.l1Capacity = c.l1Capacity ∧ c'.l2Capacity = c.l2Capacity ∧
      c'.serverID = c.serverID := by
  intro ops
  induction ops with
  | nil =>
    intro c c' hInv h
    cases h
    exact ⟨hInv, rfl, rfl, rfl⟩
  | cons op ops ih =>
    intro c c' hInv h
    rw [runOps] at h
    cases hstep : applyOp fuel op c with
    | none =>
      rw [hstep] at h
      exact absurd h (by simp)
    | some c1 =>
      rw [hstep] at h
      have h' : runOps fuel ops c1 = some c' := h
      obtain ⟨hI1, e1, e2, e3⟩ := applyOp_inv hInv hstep
      obtain ⟨hI', f1, f2, f3⟩ := ih hI1 h'
      exact ⟨hI', f1.trans e1, f2.trans e2, f3.trans e3⟩

/-- A fresh cache satisfies the invariant for every capacity pair. -/
theorem newCache_inv (sid : String) (cap1 cap2 : Int) :
    CacheInv (newHierarchicalCache sid cap1 cap2) := by
  refine ⟨⟨Or.inr rfl, Or.inr rfl⟩, ⟨List.nodup_nil, List.nodup_nil, ?_⟩, ?_, rfl, rfl⟩
  · intro id hid
    simp [keysOf, newHierarchicalCache] at hid
  · intro p hp
    simp [newHierarchicalCache] at hp

/-- Every reachable state satisfies the invariant and keeps the fresh
cache's configuration. -/
theorem reachable_inv {sid : String} {cap1 cap2 : Int} {c : HierarchicalCache}
    (h : Reachable (newHierarchicalCache sid cap1 cap2) c) :
    CacheInv c ∧ c.l1Capacity = cap1 ∧ c.l2Capacity = cap2 ∧ c.serverID = sid := by
  obtain ⟨fuel, ops, hrun⟩ := h
  exact runOps_inv (newCache_inv sid cap1 cap2) hrun

/-- `GetOrCreate` registers exactly one request, on every branch and with no
side condition. -/
theorem getOrCreate_total {fuel now : Nat} {chatID : String} {c : HierarchicalCache}
    {r : HierarchicalCache × CacheLevel} (h : getOrCreate fuel now chatID c = some r) :
    r.1.stats.totalRequests = c.stats.totalRequests + 1 := by
  cases hx1 : lookupEntry c.l1 chatID with
  | some session =>
    rw [getOrCreate_l1_eq hx1] at h
    cases h
    rfl
  | none =>
    cases hx2 : lookupEntry c.l2 chatID with
    | some session =>
      rw [getOrCreate_l2_eq hx1 hx2] at h
      unfold addToL1 at h
      rw [Option.map_map] at h
      obtain ⟨cL, hloop, hr⟩ := Option.map_eq_some'.mp h
      subst hr
      dsimp only [Function.comp]
      obtain ⟨-, -, -, w4, -⟩ := addToL1Loop_statsSpec hloop
      obtain ⟨t1, -, -, -, -⟩ := w4
      dsimp only at t1
      exact t1
    | none =>
      rw [getOrCreate_miss_eq hx1 hx2] at h
      unfold addToL1 at h
      rw [Option.map_map] at h
      obtain ⟨cL, hloop, hr⟩ := Option.map_eq_some'.mp h
      subst hr
      dsimp only [Function.comp]
      obtain ⟨-, -, -, w4, -⟩ := addToL1Loop_statsSpec hloop
      obtain ⟨t1, -, -, -, -⟩ := w4
      dsimp only at t1
      exact t1

/-- `AddMessage` registers exactly one request: the embedded `GetOrCreate`
counts it and the append step does not touch the counters. -/
theorem addMessage_total {fuel now : Nat} {chatID : String} {msg : Message}
    {c : HierarchicalCache} {r : HierarchicalCache × CacheLevel}
    (h : addMessage fuel now chatID msg c = some r) :
    r.1.stats.totalRequests = c.stats.totalRequests + 1 := by
  unfold addMessage at h
  obtain ⟨q, hq, hrq⟩ := Option.map_eq_some'.mp h
  subst hrq
  have hg := getOrCreate_total hq
  exact hg

/-- On a fresh cache with non-positive L1 capacity, `GetOrCreate` never
returns: the first insertion enters the demotion loop whose guard
`len(l1Cache) >= l1Capacity` can never fail. -/
theorem getOrCreate_fresh_none {sid : String} {cap1 cap2 : Int} (h : cap1 ≤ 0)
    (fuel now : Nat) (chatID : String) :
    getOrCreate fuel now chatID (newHierarchicalCache sid cap1 cap2) = none := by
  have hx1 : lookupEntry (newHierarchicalCache sid cap1 cap2).l1 chatID = none := rfl
  have hx2 : lookupEntry (newHierarchicalCache sid cap1 cap2).l2 chatID = none := rfl
  rw [getOrCreate_miss_eq hx1 hx2]
  unfold addToL1
  rw [addToL1Loop_none fuel _ h]
  rfl

/-- C4: for every cache constructed with `cap1 ≥ 1` and `cap2 ≥ 0`, after
every completed sequence of public operations the state satisfies
`|L1| ≤ cap1`, `|L2| ≤ cap2`, and no session id is in both tiers. -/
theorem cache_capacity_disjointness (sid : String) (cap1 cap2 : Int)
    (c : HierarchicalCache) (h1 : 1 ≤ cap1) (h2 : 0 ≤ cap2)
    (hr : Reachable (newHierarchicalCache sid cap1 cap2) c) :
    (c.l1.length : Int) ≤ cap1 ∧ (c.l2.length : Int) ≤ cap2 ∧
    ∀ id ∈ keysOf c.l1, ¬ id ∈ keysOf c.l2 := by
  obtain ⟨⟨⟨hS1, hS2⟩, ⟨-, -, hDisj⟩, -, -⟩, e1, e2, -⟩ := reachable_inv hr
  refine ⟨?_, ?_, hDisj⟩
  · rcases hS1 with hle | hemp
    · rw [e1] at hle
      exact hle
    · rw [hemp]
      show ((0 : Nat) : Int) ≤ cap1
      omega
  · rcases hS2 with hle | hemp
    · rw [e2] at hle
      exact hle
    · rw [hemp]
      show ((0 : Nat) : Int) ≤ cap2
      omega

/-- Witness for C4 at a concrete reachable state. -/
theorem cache_capacity_disjointness_witness :
    (((HierarchicalCache.mk [(("a"), ChatSession.mk ("a") [] 0 0 0)] [] 2 3 (CacheStats.mk 1 0 1 0 0 0 0) ("s")).l1.length : Int) ≤ 2) ∧
    (((HierarchicalCache.mk [(("a"), ChatSession.mk ("a") [] 0 0 0)] [] 2 3 (CacheStats.mk 1 0 1 0 0 0 0) ("s")).l2.length : Int) ≤ 3) ∧
    (∀ id ∈ keysOf (HierarchicalCache.mk [(("a"), ChatSession.mk ("a") [] 0 0 0)] [] 2 3 (CacheStats.mk 1 0 1 0 0 0 0) ("s")).l1, ¬ id ∈ keysOf (HierarchicalCache.mk [(("a"), ChatSession.mk ("a") [] 0 0 0)] [] 2 3 (CacheStats.mk 1 0 1 0 0 0 0) ("s")).l2) :=
  cache_capacity_disjointness ("s") 2 3 _ (by decide) (by decide)
    ⟨1, [CacheOp.getOrCreateOp 0 ("a")], by decide⟩

/-- C8: in every reachable cache state, every resident session's
`MessageCount` equals the length of its `Messages` slice. -/
theorem message_count_invariant (sid : String) (cap1 cap2 : Int)
    (c : HierarchicalCache) (hr : Reachable (newHierarchicalCache sid cap1 cap2) c) :
    ∀ p ∈ c.l1 ++ c.l2, p.2.messageCount = p.2.messages.length :=
  (reachable_inv hr).1.2.2.1

/-- Witness for C8 at a concrete reachable state holding one message. -/
theorem message_count_invariant_witness :
    Reachable (newHierarchicalCache ("s") 2 3) cacheW8 ∧
    ∀ p ∈ cacheW8.l1 ++ cacheW8.l2, p.2.messageCount = p.2.messages.length :=
  ⟨⟨1, [CacheOp.addMessageOp 0 ("a") (Message.mk ("hi") ("u") 0)], by decide⟩,
   message_count_invariant ("s") 2 3 cacheW8
     ⟨1, [CacheOp.addMessageOp 0 ("a") (Message.mk ("hi") ("u") 0)], by decide⟩⟩

/-- C6: after every completed sequence of operations from a fresh cache,
`hits = l1Hits + l2Hits` and `totalRequests = hits + misses`; moreover one
`AddMessage` call increments `totalRequests` by exactly one. -/
theorem counters_consistent (sid : String) (cap1 cap2 : Int) (c : HierarchicalCache)
    (hr : Reachable (newHierarchicalCache sid cap1 cap2) c) :
    (c.stats.cacheHits = c.stats.l1Hits + c.stats.l2Hits ∧
      c.stats.totalRequests = c.stats.cacheHits + c.stats.cacheMisses) ∧
    ∀ (fuel now : Nat) (id : String) (msg : Message)
      (r : HierarchicalCache × CacheLevel),
      addMessage fuel now id msg c = some r →
      r.1.stats.totalRequests = c.stats.totalRequests + 1 := by
  refine ⟨(reachable_inv hr).1.2.2.2, ?_⟩
  intro fuel now id msg r h
  exact addMessage_total h

/-- Witness for C6 at a concrete reachable state and a concrete
`AddMessage` call. -/
theorem counters_consistent_witness :
    ((HierarchicalCache.mk [(("a"), ChatSession.mk ("a") [] 0 0 0)] [] 2 3
      (CacheStats.mk 1 0 1 0 0 0 0) ("s")).stats.cacheHits =
      (HierarchicalCache.mk [(("a"), ChatSession.mk ("a") [] 0 0 0)] [] 2 3
      (CacheStats.mk 1 0 1 0 0 0 0) ("s")).stats.l1Hits +
      (HierarchicalCache.mk [(("a"), ChatSession.mk ("a") [] 0 0 0)] [] 2 3
      (CacheStats.mk 1 0 1 0 0 0 0) ("s")).stats.l2Hits ∧
      (HierarchicalCache.mk [(("a"), ChatSession.mk ("a") [] 0 0 0)] [] 2 3
      (CacheStats.mk 1 0 1 0 0 0 0) ("s")).stats.totalRequests =
      (HierarchicalCache.mk [(("a"), ChatSession.mk ("a") [] 0 0 0)] [] 2 3
      (CacheStats.mk 1 0 1 0 0 0 0) ("s")).stats.cacheHits +
      (HierarchicalCache.mk [(("a"), ChatSession.mk ("a") [] 0 0 0)] [] 2 3
      (CacheStats.mk 1 0 1 0 0 0 0) ("s")).stats.cacheMisses) ∧
    (HierarchicalCache.mk
      [(("a"), ChatSession.mk ("a") [Message.mk ("m") ("u") 7] 7 0 1)] [] 2 3
      (CacheStats.mk 2 1 1 1 0 0 0) ("s"), CacheLevel.levelL1).1.stats.totalRequests =
      (HierarchicalCache.mk [(("a"), ChatSession.mk ("a") [] 0 0 0)] [] 2 3
      (CacheStats.mk 1 0 1 0 0 0 0) ("s")).stats.totalRequests + 1 := by
  have h := counters_consistent ("s") 2 3
    (HierarchicalCache.mk [(("a"), ChatSession.mk ("a") [] 0 0 0)] [] 2 3
      (CacheStats.mk 1 0 1 0 0 0 0) ("s"))
    ⟨1, [CacheOp.getOrCreateOp 0 ("a")], by decide⟩
  exact ⟨h.1, h.2 1 7 ("a") (Message.mk ("m") ("u") 7) _ (by decide)⟩

/-- C3 (counterexample): the specification constructor rejects
`cap1 = 0` with `CapacityInvalid`, but the source constructor performs no
validation and hands the caller a cache whose hot-tier capacity is 0. -/
theorem construction_no_reject_counterexample :
    newHierarchicalCacheSpec ("srv") 0 5 = Except.error CacheError.capacityInvalid ∧
    newHierarchicalCache ("srv") 0 5 =
      HierarchicalCache.mk [] [] 0 5 CacheStats.zero ("srv") ∧
    (newHierarchicalCache ("srv") 0 5).l1Capacity ≤ 0 :=
  ⟨rfl, rfl, by decide⟩

/-- C3 (amended): construction is never rejected — `NewHierarchicalCache`
returns, for every `cap1` including `cap1 ≤ 0`, a cache with exactly the
given capacities; a cache built with `cap1 ≤ 0` is handed to callers and
its first `GetOrCreate` then never returns. -/
theorem construction_never_rejects (sid : String) (cap1 cap2 : Int) :
    newHierarchicalCache sid cap1 cap2 =
      HierarchicalCache.mk [] [] cap1 cap2 CacheStats.zero sid ∧
    (cap1 ≤ 0 → ∀ (fuel now : Nat) (chatID : String),
      getOrCreate fuel now chatID (newHierarchicalCache sid cap1 cap2) = none) := by
  refine ⟨rfl, ?_⟩
  intro h fuel now chatID
  exact getOrCreate_fresh_none h fuel now chatID

/-- Witness for C3's amended statement at `cap1 = 0`. -/
theorem construction_never_rejects_witness :
    newHierarchicalCache ("srv") 0 5 =
      HierarchicalCache.mk [] [] 0 5 CacheStats.zero ("srv") ∧
    getOrCreate 3 0 ("a") (newHierarchicalCache ("srv") 0 5) = none := by
  have h := construction_never_rejects ("srv") 0 5
  exact ⟨h.1, h.2 (by decide) 3 0 ("a")⟩

/-- If L1 is within capacity and L2 is strictly below capacity, the
demotion loop completes without a single eviction: at most one entry is
demoted, and the free L2 slot absorbs it. -/
theorem addToL1Loop_no_evict {fuel : Nat} {c c' : HierarchicalCache}
    (hcap1 : 1 ≤ c.l1Capacity)
    (hl1 : (c.l1.length : Int) ≤ c.l1Capacity)
    (hl2 : (c.l2.length : Int) < c.l2Capacity)
    (h : addToL1Loop fuel c = some c') :
    c'.stats.evictions = c.stats.evictions := by
  rw [addToL1Loop.eq_def] at h
  split at h
  next =>
    cases h
    rfl
  next hge =>
    cases fuel with
    | zero => cases h
    | succ n =>
      have hne : c.l1 ≠ [] := by
        intro hemp
        apply hge
        rw [hemp]
        show ((List.length ([] : List (String × ChatSession)) : Int) < c.l1Capacity)
        simp
        omega
      cases hl : c.l1.getLast? with
      | none => exact absurd (List.getLast?_eq_none_iff.mp hl) hne
      | some e =>
        have hloop2 : addToL2Loop n (HierarchicalCache.mk c.l1.dropLast c.l2
            c.l1Capacity c.l2Capacity
            (CacheStats.mk c.stats.totalRequests c.stats.cacheHits
              c.stats.cacheMisses c.stats.l1Hits c.stats.l2Hits
              c.stats.evictions (c.stats.demotions + 1))
            c.serverID) = some (HierarchicalCache.mk c.l1.dropLast c.l2
            c.l1Capacity c.l2Capacity
            (CacheStats.mk c.stats.totalRequests c.stats.cacheHits
              c.stats.cacheMisses c.stats.l1Hits c.stats.l2Hits
              c.stats.evictions (c.stats.demotions + 1))
            c.serverID) := by
          rw [addToL2Loop.eq_def]
          exact if_pos hl2
        have hd : demoteFromL1 n c = some (HierarchicalCache.mk c.l1.dropLast
            ((e.1, e.2) :: c.l2) c.l1Capacity c.l2Capacity
            (CacheStats.mk c.stats.totalRequests c.stats.cacheHits
              c.stats.cacheMisses c.stats.l1Hits c.stats.l2Hits
              c.stats.evictions (c.stats.demotions + 1))
            c.serverID) := by
          rw [demoteFromL1, hl]
          dsimp only
          unfold addToL2
          rw [hloop2, Option.map_some']
        dsimp only at h
        rw [hd] at h
        have h' : addToL1Loop n (HierarchicalCache.mk c.l1.dropLast
            ((e.1, e.2) :: c.l2) c.l1Capacity c.l2Capacity
            (CacheStats.mk c.stats.totalRequests c.stats.cacheHits
              c.stats.cacheMisses c.stats.l1Hits c.stats.l2Hits
              c.stats.evictions (c.stats.demotions + 1))
            c.serverID) = some c' := h
        have hexit : ((c.l1.dropLast.length : Int) < c.l1Capacity) := by
          rw [List.length_dropLast]
          omega
        rw [addToL1Loop.eq_def, if_pos hexit] at h'
        cases h'
        rfl

/-- C5: in every reachable state of a cache with `cap1 ≥ 1`, a
`GetOrCreate` that reports an L2 hit never increments the eviction
counter: the promoted entry's vacated L2 slot absorbs the at-most-one
demotion from L1. -/
theorem l2_hit_no_eviction (sid : String) (cap1 cap2 : Int)
    (c : HierarchicalCache) (fuel now : Nat) (chatID : String)
    (c' : HierarchicalCache) (hcap1 : 1 ≤ cap1)
    (hr : Reachable (newHierarchicalCache sid cap1 cap2) c)
    (h : getOrCreate fuel now chatID c = some (c', CacheLevel.levelL2)) :
    c'.stats.evictions = c.stats.evictions := by
  obtain ⟨⟨⟨hS1, hS2⟩, hKeys, hSess, hCnt⟩, e1, e2, -⟩ := reachable_inv hr
  cases hx1 : lookupEntry c.l1 chatID with
  | some session =>
    rw [getOrCreate_l1_eq hx1] at h
    simp at h
  | none =>
    cases hx2 : lookupEntry c.l2 chatID with
    | none =>
      rw [getOrCreate_miss_eq hx1 hx2] at h
      unfold addToL1 at h
      rw [Option.map_map] at h
      obtain ⟨cL, -, hr2⟩ := Option.map_eq_some'.mp h
      dsimp only [Function.comp] at hr2
      simp at hr2
    | some session =>
      rw [getOrCreate_l2_eq hx1 hx2] at h
      unfold addToL1 at h
      rw [Option.map_map] at h
      obtain ⟨cL, hloop, hr2⟩ := Option.map_eq_some'.mp h
      dsimp only [Function.comp] at hr2
      rw [Prod.mk.injEq] at hr2
      obtain ⟨hc', -⟩ := hr2
      subst hc'
      have hkey2 : chatID ∈ keysOf c.l2 := lookupEntry_some_key hx2
      have hne2 : c.l2 ≠ [] := by
        intro hemp
        rw [hemp] at hkey2
        simp [keysOf] at hkey2
      have hlen2 : (c.l2.length : Int) ≤ c.l2Capacity := by
        rcases hS2 with hle | hemp
        · exact hle
        · exact absurd hemp hne2
      have hrem := removeEntry_length_lt hkey2
      have hlen1 : (c.l1.length : Int) ≤ c.l1Capacity := by
        rcases hS1 with hle | hemp
        · exact hle
        · rw [hemp]
          show ((List.length ([] : List (String × ChatSession)) : Int) ≤ c.l1Capacity)
          simp
          omega
      have hcap1' : 1 ≤ c.l1Capacity := by
        rw [e1]
        exact hcap1
      have hev := @addToL1Loop_no_evict fuel (HierarchicalCache.mk c.l1
          (removeEntry c.l2 chatID) c.l1Capacity c.l2Capacity
          (CacheStats.mk (c.stats.totalRequests + 1) (c.stats.cacheHits + 1)
            c.stats.cacheMisses c.stats.l1Hits (c.stats.l2Hits + 1)
            c.stats.evictions c.stats.demotions)
          c.serverID) cL
        hcap1' hlen1 (by show (((removeEntry c.l2 chatID).length : Int) < c.l2Capacity); omega)
        hloop
      exact hev

set_option maxHeartbeats 1000000 in
/-- Witness for C5: the spec's scenario 4 — promotion of `a` demotes `b`
without any eviction. -/
theorem l2_hit_no_eviction_witness :
    (HierarchicalCache.mk
      [(("a"), ChatSession.mk ("a") [] 5 0 0), (("c"), ChatSession.mk ("c") [] 0 0 0)]
      [(("b"), ChatSession.mk ("b") [] 0 0 0)] 2 3
      (CacheStats.mk 4 1 3 0 1 0 2) ("s")).stats.evictions =
    (HierarchicalCache.mk
      [(("c"), ChatSession.mk ("c") [] 0 0 0), (("b"), ChatSession.mk ("b") [] 0 0 0)]
      [(("a"), ChatSession.mk ("a") [] 0 0 0)] 2 3
      (CacheStats.mk 3 0 3 0 0 0 1) ("s")).stats.evictions :=
  l2_hit_no_eviction ("s") 2 3 _ 2 5 ("a") _ (by decide)
    ⟨2, [CacheOp.getOrCreateOp 0 ("a"), CacheOp.getOrCreateOp 0 ("b"),
      CacheOp.getOrCreateOp 0 ("c")], by decide⟩
    (by decide)

/-- The demotion loop exits at once when L1 is below capacity, for any
fuel. -/
theorem addToL1Loop_exit {fuel : Nat} {c : HierarchicalCache}
    (h : (c.l1.length : Int) < c.l1Capacity) : addToL1Loop fuel c = some c := by
  rw [addToL1Loop.eq_def]
  exact if_pos h

/-- A full L1 over a zero-or-negative-capacity L2 deadlocks the demotion
loop: the inner eviction loop can never exit. -/
theorem addToL1Loop_stuck {c : HierarchicalCache}
    (h1 : ¬ (c.l1.length : Int) < c.l1Capacity)
    (h2 : c.l1 ≠ []) (h3 : c.l2Capacity ≤ 0) :
    ∀ fuel, addToL1Loop fuel c = none := by
  intro fuel
  rw [addToL1Loop.eq_def, if_neg h1]
  cases fuel with
  | zero => rfl
  | succ n =>
    have hd : demoteFromL1 n c = none := by
      rw [demoteFromL1]
      cases hl : c.l1.getLast? with
      | none => exact absurd (List.getLast?_eq_none_iff.mp hl) h2
      | some e =>
        dsimp only
        unfold addToL2
        have hnone : addToL2Loop n (HierarchicalCache.mk c.l1.dropLast c.l2
            c.l1Capacity c.l2Capacity
            (CacheStats.mk c.stats.totalRequests c.stats.cacheHits
              c.stats.cacheMisses c.stats.l1Hits c.stats.l2Hits
              c.stats.evictions (c.stats.demotions + 1))
            c.serverID) = none := addToL2Loop_none n _ h3
        rw [hnone]
        rfl
    show (demoteFromL1 n c).bind (fun c' => addToL1Loop n c') = none
    rw [hd]
    rfl

/-- `GetOrCreate` keeps the capacities with no side conditions. -/
theorem getOrCreate_caps {fuel now : Nat} {chatID : String} {c : HierarchicalCache}
    {r : HierarchicalCache × CacheLevel} (h : getOrCreate fuel now chatID c = some r) :
    r.1.l1Capacity = c.l1Capacity ∧ r.1.l2Capacity = c.l2Capacity := by
  cases hx1 : lookupEntry c.l1 chatID with
  | some session =>
    rw [getOrCreate_l1_eq hx1] at h
    cases h
    exact ⟨rfl, rfl⟩
  | none =>
    cases hx2 : lookupEntry c.l2 chatID with
    | some session =>
      rw [getOrCreate_l2_eq hx1 hx2] at h
      unfold addToL1 at h
      rw [Option.map_map] at h
      obtain ⟨cL, hloop, hr⟩ := Option.map_eq_some'.mp h
      subst hr
      dsimp only [Function.comp]
      obtain ⟨w1, w2, -, -, -⟩ := addToL1Loop_statsSpec hloop
      dsimp only at w1 w2
      exact ⟨w1, w2⟩
    | none =>
      rw [getOrCreate_miss_eq hx1 hx2] at h
      unfold addToL1 at h
      rw [Option.map_map] at h
      obtain ⟨cL, hloop, hr⟩ := Option.map_eq_some'.mp h
      subst hr
      dsimp only [Function.comp]
      obtain ⟨w1, w2, -, -, -⟩ := addToL1Loop_statsSpec hloop
      dsimp only at w1 w2
      exact ⟨w1, w2⟩

/-- Fuel monotonicity for `GetOrCreate`. -/
theorem getOrCreate_mono {m n now : Nat} {chatID : String}
    {c : HierarchicalCache} {r : HierarchicalCache × CacheLevel}
    (hmn : m ≤ n) (h : getOrCreate m now chatID c = some r) :
    getOrCreate n now chatID c = some r := by
  cases hx1 : lookupEntry c.l1 chatID with
  | some session =>
    rw [getOrCreate_l1_eq hx1] at h
    rw [getOrCreate_l1_eq hx1]
    exact h
  | none =>
    cases hx2 : lookupEntry c.l2 chatID with
    | some session =>
      rw [getOrCreate_l2_eq hx1 hx2] at h
      rw [getOrCreate_l2_eq hx1 hx2]
      unfold addToL1 at h ⊢
      rw [Option.map_map] at h ⊢
      obtain ⟨cL, hloop, hr⟩ := Option.map_eq_some'.mp h
      rw [addToL1Loop_mono hmn hloop, Option.map_some']
      rw [hr]
    | none =>
      rw [getOrCreate_miss_eq hx1 hx2] at h
      rw [getOrCreate_miss_eq hx1 hx2]
      unfold addToL1 at h ⊢
      rw [Option.map_map] at h ⊢
      obtain ⟨cL, hloop, hr⟩ := Option.map_eq_some'.mp h
      rw [addToL1Loop_mono hmn hloop, Option.map_some']
      rw [hr]

/-- Fuel monotonicity for the public operations. -/
theorem applyOp_mono {m n : Nat} {op : CacheOp} {c c' : HierarchicalCache}
    (hmn : m ≤ n) (h : applyOp m op c = some c') : applyOp n op c = some c' := by
  cases op with
  | getOrCreateOp now id =>
    obtain ⟨r, hr, hc'⟩ := Option.map_eq_some'.mp h
    show (getOrCreate n now id c).map (fun r => r.1) = some c'
    rw [getOrCreate_mono hmn hr, Option.map_some']
    rw [hc']
  | addMessageOp now id msg =>
    obtain ⟨r, hr, hc'⟩ := Option.map_eq_some'.mp h
    unfold addMessage at hr
    obtain ⟨q, hq, hrq⟩ := Option.map_eq_some'.mp hr
    show (addMessage n now id msg c).map (fun r => r.1) = some c'
    unfold addMessage
    rw [getOrCreate_mono hmn hq, Option.map_some', Option.map_some']
    rw [hrq, hc']
  | getSessionOp id => exact h
  | clearOp => exact h

/-- Fuel monotonicity for operation sequences. -/
theorem runOps_mono {m n : Nat} (hmn : m ≤ n) :
    ∀ {ops : List CacheOp} {c c' : HierarchicalCache},
      runOps m ops c = some c' → runOps n ops c = some c' := by
  intro ops
  induction ops with
  | nil =>
    intro c c' h
    exact h
  | cons op ops ih =>
    intro c c' h
    rw [runOps] at h ⊢
    cases hstep : applyOp m op c with
    | none =>
      rw [hstep] at h
      exact absurd h (by simp)
    | some c1 =>
      rw [hstep] at h
      have h' : runOps m ops c1 = some c' := h
      rw [applyOp_mono hmn hstep]
      show runOps n ops c1 = some c'
      exact ih h'

/-- Every public operation preserves the capacities, with no side
conditions. -/
theorem applyOp_caps {fuel : Nat} {op : CacheOp} {c c' : HierarchicalCache}
    (h : applyOp fuel op c = some c') :
    c'.l1Capacity = c.l1Capacity ∧ c'.l2Capacity = c.l2Capacity := by
  cases op with
  | getOrCreateOp now id =>
    obtain ⟨r, hr, hc'⟩ := Option.map_eq_some'.mp h
    subst hc'
    exact getOrCreate_caps hr
  | addMessageOp now id msg =>
    obtain ⟨r, hr, hc'⟩ := Option.map_eq_some'.mp h
    unfold addMessage at hr
    obtain ⟨q, hq, hrq⟩ := Option.map_eq_some'.mp hr
    subst hc'
    subst hrq
    have hg := getOrCreate_caps hq
    exact hg
  | getSessionOp id =>
    cases h
    exact ⟨rfl, rfl⟩
  | clearOp =>
    cases h
    exact ⟨rfl, rfl⟩

/-- Existence of sufficient fuel for `GetOrCreate` under positive
capacities. -/
theorem getOrCreate_exists (now : Nat) (chatID : String) (c : HierarchicalCache)
    (h1 : 1 ≤ c.l1Capacity) (h2 : 1 ≤ c.l2Capacity) :
    ∃ fuel r, getOrCreate fuel now chatID c = some r := by
  cases hx1 : lookupEntry c.l1 chatID with
  | some session => exact ⟨0, _, getOrCreate_l1_eq hx1⟩
  | none =>
    cases hx2 : lookupEntry c.l2 chatID with
    | some session =>
      obtain ⟨fuel, cL, hloop⟩ := addToL1Loop_exists c.l1.length
        (HierarchicalCache.mk c.l1 (removeEntry c.l2 chatID) c.l1Capacity c.l2Capacity
          (CacheStats.mk (c.stats.totalRequests + 1) (c.stats.cacheHits + 1)
            c.stats.cacheMisses c.stats.l1Hits (c.stats.l2Hits + 1)
            c.stats.evictions c.stats.demotions)
          c.serverID)
        (le_refl c.l1.length) h1 h2
      refine ⟨fuel, (HierarchicalCache.mk ((chatID, ChatSession.mk session.chatID
        session.messages now session.createdAt session.messageCount) :: cL.l1)
        cL.l2 cL.l1Capacity cL.l2Capacity cL.stats cL.serverID,
        CacheLevel.levelL2), ?_⟩
      rw [getOrCreate_l2_eq hx1 hx2]
      unfold addToL1
      rw [hloop, Option.map_some', Option.map_some']
    | none =>
      obtain ⟨fuel, cL, hloop⟩ := addToL1Loop_exists c.l1.length
        (HierarchicalCache.mk c.l1 c.l2 c.l1Capacity c.l2Capacity
          (CacheStats.mk (c.stats.totalRequests + 1) c.stats.cacheHits
            (c.stats.cacheMisses + 1) c.stats.l1Hits c.stats.l2Hits
            c.stats.evictions c.stats.demotions)
          c.serverID)
        (le_refl c.l1.length) h1 h2
      refine ⟨fuel, (HierarchicalCache.mk ((chatID, ChatSession.mk chatID [] now now 0)
        :: cL.l1) cL.l2 cL.l1Capacity cL.l2Capacity cL.stats cL.serverID,
        CacheLevel.levelMiss), ?_⟩
      rw [getOrCreate_miss_eq hx1 hx2]
      unfold addToL1
      rw [hloop, Option.map_some', Option.map_some']

/-- Existence of sufficient fuel for every public operation under positive
capacities. -/
theorem applyOp_exists (op : CacheOp) (c : HierarchicalCache)
    (h1 : 1 ≤ c.l1Capacity) (h2 : 1 ≤ c.l2Capacity) :
    ∃ fuel c', applyOp fuel op c = some c' := by
  cases op with
  | getOrCreateOp now id =>
    obtain ⟨fuel, r, hr⟩ := getOrCreate_exists now id c h1 h2
    refine ⟨fuel, r.1, ?_⟩
    show (getOrCreate fuel now id c).map (fun r => r.1) = some r.1
    rw [hr, Option.map_some']
  | addMessageOp now id msg =>
    obtain ⟨fuel, r, hr⟩ := getOrCreate_exists now id c h1 h2
    refine ⟨fuel, updateSessionEverywhere id (appendToSession msg now) r.1, ?_⟩
    show (addMessage fuel now id msg c).map (fun r => r.1) =
      some (updateSessionEverywhere id (appendToSession msg now) r.1)
    unfold addMessage
    rw [hr, Option.map_some', Option.map_some']
  | getSessionOp id => exact ⟨0, c, rfl⟩
  | clearOp => exact ⟨0, clear c, rfl⟩

/-- Existence of sufficient fuel for a whole sequence of operations under
positive capacities. -/
theorem runOps_exists :
    ∀ (ops : List CacheOp) (c : HierarchicalCache), 1 ≤ c.l1Capacity →
      1 ≤ c.l2Capacity → ∃ fuel c', runOps fuel ops c = some c' := by
  intro ops
  induction ops with
  | nil =>
    intro c _ _
    exact ⟨0, c, rfl⟩
  | cons op ops ih =>
    intro c h1 h2
    obtain ⟨f1, c1, hstep⟩ := applyOp_exists op c h1 h2
    obtain ⟨e1, e2⟩ := applyOp_caps hstep
    obtain ⟨f2, c', hrun⟩ := ih c1 (by rw [e1]; exact h1) (by rw [e2]; exact h2)
    refine ⟨max f1 f2, c', ?_⟩
    rw [runOps]
    rw [applyOp_mono (Nat.le_max_left f1 f2) hstep]
    show runOps (max f1 f2) ops c1 = some c'
    exact runOps_mono (Nat.le_max_right f1 f2) hrun

/-- Splitting a run over an appended operation list. -/
theorem runOps_append {fuel : Nat} :
    ∀ (a b : List CacheOp) (c : HierarchicalCache),
      runOps fuel (a ++ b) c = (runOps fuel a c).bind (runOps fuel b) := by
  intro a
  induction a with
  | nil =>
    intro b c
    rfl
  | cons op a ih =>
    intro b c
    show (applyOp fuel op c).bind (runOps fuel (a ++ b)) =
      ((applyOp fuel op c).bind (runOps fuel a)).bind (runOps fuel b)
    cases applyOp fuel op c with
    | none => rfl
    | some c1 => exact ih b c1

/-- A miss on a full L1 backed by a non-positive-capacity L2 never
returns. -/
theorem getOrCreate_stuck_full {c : HierarchicalCache} (fuel now : Nat)
    {chatID : String} (hx1 : lookupEntry c.l1 chatID = none) (hx2v : c.l2 = [])
    (hfull : ¬ (c.l1.length : Int) < c.l1Capacity) (hne : c.l1 ≠ [])
    (hcap2 : c.l2Capacity ≤ 0) :
    getOrCreate fuel now chatID c = none := by
  have hx2 : lookupEntry c.l2 chatID = none := by
    rw [hx2v]
    rfl
  rw [getOrCreate_miss_eq hx1 hx2]
  unfold addToL1
  have hstuck : addToL1Loop fuel (HierarchicalCache.mk c.l1 c.l2 c.l1Capacity
      c.l2Capacity (CacheStats.mk (c.stats.totalRequests + 1) c.stats.cacheHits
        (c.stats.cacheMisses + 1) c.stats.l1Hits c.stats.l2Hits
        c.stats.evictions c.stats.demotions) c.serverID) = none :=
    @addToL1Loop_stuck (HierarchicalCache.mk c.l1 c.l2 c.l1Capacity
      c.l2Capacity (CacheStats.mk (c.stats.totalRequests + 1) c.stats.cacheHits
        (c.stats.cacheMisses + 1) c.stats.l1Hits c.stats.l2Hits
        c.stats.evictions c.stats.demotions) c.serverID) hfull hne hcap2 fuel
  rw [hstuck]
  rfl

/-- Filling a cache that has free L1 room with fresh distinct ids: every
insertion is a miss that exits the demotion loop at once, L2 stays empty,
and the inserted ids pile up at the L1 front. -/
theorem runOps_fill {fuel : Nat} :
    ∀ (ids : List String) (c : HierarchicalCache), c.l2 = [] →
      (∀ id ∈ ids, ¬ id ∈ keysOf c.l1) → ids.Nodup →
      ((c.l1.length : Int) + (ids.length : Int)) ≤ c.l1Capacity →
      ∃ c', runOps fuel (ids.map (fun id => CacheOp.getOrCreateOp 0 id)) c = some c' ∧
        keysOf c'.l1 = ids.reverse ++ keysOf c.l1 ∧ c'.l2 = [] ∧
        c'.l1Capacity = c.l1Capacity ∧ c'.l2Capacity = c.l2Capacity := by
  intro ids
  induction ids with
  | nil =>
    intro c hl2 _ _ _
    exact ⟨c, rfl, by simp, hl2, rfl, rfl⟩
  | cons id ids ih =>
    intro c hl2 hfresh hnodup hlen
    have hx1 : lookupEntry c.l1 id = none :=
      lookupEntry_none_iff.mpr (hfresh id (List.mem_cons_self id ids))
    have hx2 : lookupEntry c.l2 id = none := by
      rw [hl2]
      rfl
    have hlen' : (c.l1.length : Int) < c.l1Capacity := by
      rw [List.length_cons] at hlen
      push_cast at hlen
      omega
    have hexit : addToL1Loop fuel (HierarchicalCache.mk c.l1 c.l2 c.l1Capacity c.l2Capacity
          (CacheStats.mk (c.stats.totalRequests + 1) c.stats.cacheHits
            (c.stats.cacheMisses + 1) c.stats.l1Hits c.stats.l2Hits
            c.stats.evictions c.stats.demotions) c.serverID) = some (HierarchicalCache.mk c.l1 c.l2 c.l1Capacity c.l2Capacity
          (CacheStats.mk (c.stats.totalRequests + 1) c.stats.cacheHits
            (c.stats.cacheMisses + 1) c.stats.l1Hits c.stats.l2Hits
            c.stats.evictions c.stats.demotions) c.serverID) :=
      @addToL1Loop_exit fuel (HierarchicalCache.mk c.l1 c.l2 c.l1Capacity c.l2Capacity
          (CacheStats.mk (c.stats.totalRequests + 1) c.stats.cacheHits
            (c.stats.cacheMisses + 1) c.stats.l1Hits c.stats.l2Hits
            c.stats.evictions c.stats.demotions) c.serverID) hlen'
    have hstep : applyOp fuel (CacheOp.getOrCreateOp 0 id) c = some (HierarchicalCache.mk ((id, ChatSession.mk id [] 0 0 0) :: c.l1) c.l2
          c.l1Capacity c.l2Capacity
          (CacheStats.mk (c.stats.totalRequests + 1) c.stats.cacheHits
            (c.stats.cacheMisses + 1) c.stats.l1Hits c.stats.l2Hits
            c.stats.evictions c.stats.demotions) c.serverID) := by
      show (getOrCreate fuel 0 id c).map (fun r => r.1) = some (HierarchicalCache.mk ((id, ChatSession.mk id [] 0 0 0) :: c.l1) c.l2
          c.l1Capacity c.l2Capacity
          (CacheStats.mk (c.stats.totalRequests + 1) c.stats.cacheHits
            (c.stats.cacheMisses + 1) c.stats.l1Hits c.stats.l2Hits
            c.stats.evictions c.stats.demotions) c.serverID)
      rw [getOrCreate_miss_eq hx1 hx2]
      unfold addToL1
      rw [hexit, Option.map_some', Option.map_some', Option.map_some']
    have hfresh' : ∀ id' ∈ ids, ¬ id' ∈ keysOf (HierarchicalCache.mk ((id, ChatSession.mk id [] 0 0 0) :: c.l1) c.l2
          c.l1Capacity c.l2Capacity
          (CacheStats.mk (c.stats.totalRequests + 1) c.stats.cacheHits
            (c.stats.cacheMisses + 1) c.stats.l1Hits c.stats.l2Hits
            c.stats.evictions c.stats.demotions) c.serverID).l1 := by
      intro id' hid' hmem
      rw [show keysOf (HierarchicalCache.mk ((id, ChatSession.mk id [] 0 0 0) :: c.l1) c.l2
          c.l1Capacity c.l2Capacity
          (CacheStats.mk (c.stats.totalRequests + 1) c.stats.cacheHits
            (c.stats.cacheMisses + 1) c.stats.l1Hits c.stats.l2Hits
            c.stats.evictions c.stats.demotions) c.serverID).l1 = id :: keysOf c.l1 from rfl] at hmem
      rcases List.mem_cons.mp hmem with heq | hm
      · rw [heq] at hid'
        exact (List.nodup_cons.mp hnodup).1 hid'
      · exact hfresh id' (List.mem_cons_of_mem id hid') hm
    have hlen2 : (((HierarchicalCache.mk ((id, ChatSession.mk id [] 0 0 0) :: c.l1) c.l2
          c.l1Capacity c.l2Capacity
          (CacheStats.mk (c.stats.totalRequests + 1) c.stats.cacheHits
            (c.stats.cacheMisses + 1) c.stats.l1Hits c.stats.l2Hits
            c.stats.evictions c.stats.demotions) c.serverID).l1.length : Int) + (ids.length : Int)) ≤
        (HierarchicalCache.mk ((id, ChatSession.mk id [] 0 0 0) :: c.l1) c.l2
          c.l1Capacity c.l2Capacity
          (CacheStats.mk (c.stats.totalRequests + 1) c.stats.cacheHits
            (c.stats.cacheMisses + 1) c.stats.l1Hits c.stats.l2Hits
            c.stats.evictions c.stats.demotions) c.serverID).l1Capacity := by
      show ((((id, ChatSession.mk id [] 0 0 0) :: c.l1).length : Int) +
        (ids.length : Int)) ≤ c.l1Capacity
      rw [List.length_cons]
      rw [List.length_cons] at hlen
      push_cast at hlen ⊢
      omega
    obtain ⟨c', hrun, hkeys, hl2', e1, e2⟩ :=
      ih (HierarchicalCache.mk ((id, ChatSession.mk id [] 0 0 0) :: c.l1) c.l2
          c.l1Capacity c.l2Capacity
          (CacheStats.mk (c.stats.totalRequests + 1) c.stats.cacheHits
            (c.stats.cacheMisses + 1) c.stats.l1Hits c.stats.l2Hits
            c.stats.evictions c.stats.demotions) c.serverID) hl2 hfresh' (List.nodup_cons.mp hnodup).2 hlen2
    refine ⟨c', ?_, ?_, hl2', e1, e2⟩
    · rw [List.map_cons, runOps, hstep]
      show runOps fuel (ids.map (fun id => CacheOp.getOrCreateOp 0 id)) (HierarchicalCache.mk ((id, ChatSession.mk id [] 0 0 0) :: c.l1) c.l2
          c.l1Capacity c.l2Capacity
          (CacheStats.mk (c.stats.totalRequests + 1) c.stats.cacheHits
            (c.stats.cacheMisses + 1) c.stats.l1Hits c.stats.l2Hits
            c.stats.evictions c.stats.demotions) c.serverID) = some c'
      exact hrun
    · rw [hkeys, List.reverse_cons, List.append_assoc]
      rfl

/-- Distinct lengths give distinct all-`a` identifiers. -/
theorem replicate_id_injective :
    Function.Injective (fun n : Nat => String.mk (List.replicate n 'a')) := by
  intro a b hab
  have hdata : List.replicate a 'a' = List.replicate b 'a' := congrArg String.data hab
  have hlen := congrArg List.length hdata
  simpa using hlen

/-- A fresh cache with non-positive hot-tier capacity diverges on its
first insertion. -/
theorem fresh_cap1_nonpos_diverges {sid : String} {cap1 cap2 : Int}
    (hc1 : cap1 ≤ 0) : ¬ TerminatesAll (newHierarchicalCache sid cap1 cap2) := by
  intro hT
  obtain ⟨fuel, hs⟩ := hT [CacheOp.getOrCreateOp 0 ("a")]
  have hnone : applyOp fuel (CacheOp.getOrCreateOp 0 ("a"))
      (newHierarchicalCache sid cap1 cap2) = none := by
    show (getOrCreate fuel 0 ("a") (newHierarchicalCache sid cap1 cap2)).map
      (fun r => r.1) = none
    rw [getOrCreate_fresh_none hc1 fuel 0 ("a")]
    rfl
  rw [runOps, hnone] at hs
  simp at hs

/-- A fresh cache with positive hot-tier capacity but non-positive warm
capacity diverges once the hot tier overflows: `cap1` distinct insertions
fill L1, and the next distinct insertion hangs in the L2 eviction loop. -/
theorem fresh_cap2_nonpos_diverges {sid : String} {cap1 cap2 : Int}
    (hcap1 : 1 ≤ cap1) (hc2 : cap2 ≤ 0) :
    ¬ TerminatesAll (newHierarchicalCache sid cap1 cap2) := by
  intro hT
  obtain ⟨fuel, hs⟩ := hT
    (((List.range cap1.toNat).map (fun n => String.mk (List.replicate n 'a'))).map
      (fun id => CacheOp.getOrCreateOp 0 id) ++
      [CacheOp.getOrCreateOp 0 (String.mk (List.replicate cap1.toNat 'a'))])
  have htn : ((cap1.toNat : Int)) = cap1 := Int.toNat_of_nonneg (by omega)
  have hnodup : ((List.range cap1.toNat).map
      (fun n => String.mk (List.replicate n 'a'))).Nodup :=
    List.Nodup.map replicate_id_injective (List.nodup_range cap1.toNat)
  have hfresh : ∀ id ∈ (List.range cap1.toNat).map
      (fun n => String.mk (List.replicate n 'a')),
      ¬ id ∈ keysOf (newHierarchicalCache sid cap1 cap2).l1 := by
    intro id _ hmem
    simp [keysOf, newHierarchicalCache] at hmem
  have hlen : (((newHierarchicalCache sid cap1 cap2).l1.length : Int) +
      ((((List.range cap1.toNat).map
        (fun n => String.mk (List.replicate n 'a'))).length : Int))) ≤
      (newHierarchicalCache sid cap1 cap2).l1Capacity := by
    rw [List.length_map, List.length_range]
    show ((List.length ([] : List (String × ChatSession)) : Int)) +
      ((cap1.toNat : Int)) ≤ cap1
    simp
    omega
  obtain ⟨c', hrun, hkeys, hl2', e1, e2⟩ := runOps_fill
    ((List.range cap1.toNat).map (fun n => String.mk (List.replicate n 'a')))
    (newHierarchicalCache sid cap1 cap2) rfl hfresh hnodup hlen
  have hkeys' : keysOf c'.l1 = ((List.range cap1.toNat).map
      (fun n => String.mk (List.replicate n 'a'))).reverse := by
    rw [hkeys, show keysOf (newHierarchicalCache sid cap1 cap2).l1 = []
      from rfl, List.append_nil]
  have hlength : c'.l1.length = cap1.toNat := by
    have h1 := congrArg List.length hkeys'
    unfold keysOf at h1
    rw [List.length_map, List.length_reverse, List.length_map,
      List.length_range] at h1
    exact h1
  have hne : c'.l1 ≠ [] := by
    intro hemp
    rw [hemp] at hlength
    have h0 : cap1.toNat = 0 := by
      rw [← hlength]
      rfl
    omega
  have hfull : ¬ (c'.l1.length : Int) < c'.l1Capacity := by
    rw [hlength, e1]
    rw [show (newHierarchicalCache sid cap1 cap2).l1Capacity = cap1 from rfl]
    omega
  have hboomfresh : lookupEntry c'.l1
      (String.mk (List.replicate cap1.toNat 'a')) = none := by
    rw [lookupEntry_none_iff, hkeys']
    intro hmem
    rw [List.mem_reverse] at hmem
    obtain ⟨n, hn, hfn⟩ := List.mem_map.mp hmem
    rw [List.mem_range] at hn
    have hnk := replicate_id_injective hfn
    omega
  have hcap2' : c'.l2Capacity ≤ 0 := by
    rw [e2]
    rw [show (newHierarchicalCache sid cap1 cap2).l2Capacity = cap2 from rfl]
    exact hc2
  have hboom : applyOp fuel (CacheOp.getOrCreateOp 0
      (String.mk (List.replicate cap1.toNat 'a'))) c' = none := by
    show (getOrCreate fuel 0 (String.mk (List.replicate cap1.toNat 'a')) c').map
      (fun r => r.1) = none
    rw [getOrCreate_stuck_full fuel 0 hboomfresh hl2' hfull hne hcap2']
    rfl
  rw [runOps_append, hrun] at hs
  have hs' : (runOps fuel [CacheOp.getOrCreateOp 0
      (String.mk (List.replicate cap1.toNat 'a'))] c').isSome = true := hs
  rw [runOps, hboom] at hs'
  simp at hs'

/-- C10 (counterexample): the claim's biconditional fails at
`cap1 = 1, cap2 = 0` — the hot-tier capacity is positive, yet inserting a
second distinct session spins forever in `addToL2`'s eviction loop, whose
guard `len(l2Cache) >= 0` never fails. -/
theorem termination_iff_counterexample :
    (¬ TerminatesAll (newHierarchicalCache ("s") 1 0)) ∧ ((1 : Int) ≤ 1) :=
  ⟨fresh_cap2_nonpos_diverges (by decide) (by decide), by decide⟩

/-- C10 (amended): every sequence of public operations on a fresh cache
completes precisely when BOTH capacities are at least 1.  With `cap1 ≤ 0`
the first insertion's demotion loop never exits; with `cap1 ≥ 1` but
`cap2 ≤ 0` the first overflow of L1 hangs in the L2 eviction loop. -/
theorem termination_iff_amended (sid : String) (cap1 cap2 : Int) :
    TerminatesAll (newHierarchicalCache sid cap1 cap2) ↔ (1 ≤ cap1 ∧ 1 ≤ cap2) := by
  constructor
  · intro hT
    by_contra hnot
    have hsplit : cap1 ≤ 0 ∨ (1 ≤ cap1 ∧ cap2 ≤ 0) := by
      rcases not_and_or.mp hnot with h | h
      · left
        omega
      · by_cases hc : 1 ≤ cap1
        · right
          exact ⟨hc, by omega⟩
        · left
          omega
    rcases hsplit with hc1 | ⟨hcap1, hc2⟩
    · exact fresh_cap1_nonpos_diverges hc1 hT
    · exact fresh_cap2_nonpos_diverges hcap1 hc2 hT
  · rintro ⟨h1, h2⟩
    intro ops
    obtain ⟨fuel, c', hrun⟩ := runOps_exists ops (newHierarchicalCache sid cap1 cap2) h1 h2
    refine ⟨fuel, ?_⟩
    rw [hrun]
    rfl

/-- A key appended to an association list is found. -/
theorem lookupAssoc_append_self {α : Type} (l : List (String × α)) (k : String) (v : α) :
    (lookupAssoc (l ++ [(k, v)]) k).isSome = true := by
  rw [lookupAssoc_isSome_iff]
  simp

/-- After any `AddNode` call the node id is registered. -/
theorem addNode_present (r : HashRing) (id : String) (cap : Int) (addr : String) :
    (lookupAssoc (addNode r id cap addr).nodeCapacity id).isSome = true := by
  unfold addNode
  split
  next h => exact h
  next h =>
    dsimp only
    rw [lookupAssoc_isSome_iff]
    simp

/-- `AddNode` on an already-registered id is a strict no-op. -/
theorem addNode_of_present {r : HashRing} {id : String}
    (h : (lookupAssoc r.nodeCapacity id).isSome = true) (cap : Int) (addr : String) :
    addNode r id cap addr = r := by
  unfold addNode
  rw [if_pos h]

/-- `RemoveNode` on an unregistered id is a strict no-op. -/
theorem removeNode_of_absent {r : HashRing} {id : String}
    (h : lookupAssoc r.nodeCapacity id = none) : removeNode r id = r := by
  unfold removeNode
  rw [if_neg ?_]
  rw [h]
  simp

/-- C9: ring mutations are idempotent — a second `AddNode` of the same id
(with any weight and address) leaves the ring exactly in the state after
the first call, and `RemoveNode` of an absent id leaves the ring
unchanged. -/
theorem ring_mutations_idempotent (r : HashRing) (id : String) (w : Int)
    (a : String) (w' : Int) (a' : String) :
    (addNode (addNode r id w a) id w' a' = addNode r id w a) ∧
    (lookupAssoc r.nodeCapacity id = none → removeNode r id = r) :=
  ⟨addNode_of_present (addNode_present r id w a) w' a',
   fun h => removeNode_of_absent h⟩

/-- Witness for C9 at a concrete ring. -/
theorem ring_mutations_idempotent_witness :
    (addNode (addNode (newHashRing 1) ("a") 1 ("x")) ("a") 2 ("y") =
      addNode (newHashRing 1) ("a") 1 ("x")) ∧
    (removeNode (newHashRing 1) ("b") = newHashRing 1) :=
  ⟨(ring_mutations_idempotent (newHashRing 1) ("a") 1 ("x") 2 ("y")).1,
   (ring_mutations_idempotent (newHashRing 1) ("b") 1 ("x") 1 ("x")).2 (by decide)⟩

/-- In-range `getD` selects an element of the list. -/
theorem getD_mem_of_lt {α : Type} {l : List α} {i : Nat} {d : α}
    (h : i < l.length) : l.getD i d ∈ l := by
  rw [List.getD_eq_getElem?_getD, List.getElem?_eq_getElem h]
  exact List.getElem_mem h

/-- Sorting by hash does not change membership. -/
theorem mem_sortByHash {l : List VirtualNode} {v : VirtualNode} :
    v ∈ sortByHash l ↔ v ∈ l := by
  unfold sortByHash
  exact List.mem_insertionSort _

/-- The fresh ring satisfies the ring invariant. -/
theorem newHashRing_inv (replicas : Int) : RingInv (newHashRing replicas) := by
  refine ⟨List.nodup_nil, ?_, ?_, ?_⟩
  · intro v hv
    cases hv
  · intro id hid
    cases hid
  · show 1 ≤ (if replicas < 1 then 100 else replicas)
    split
    · omega
    next h => omega

/-- `AddNode` preserves the ring invariant. -/
theorem addNode_inv {r : HashRing} (hInv : RingInv r) (id : String) (cap : Int)
    (addr : String) : RingInv (addNode r id cap addr) := by
  obtain ⟨hN, hOwn, hHas, hRep⟩ := hInv
  unfold addNode
  split
  next => exact ⟨hN, hOwn, hHas, hRep⟩
  next habs =>
    have hnotmem : ¬ id ∈ ringKeys r := by
      intro hmem
      exact habs ((lookupAssoc_isSome_iff r.nodeCapacity id).mpr hmem)
    dsimp only
    refine ⟨?_, ?_, ?_, hRep⟩
    · show ((r.nodeCapacity ++ [(id, if cap < 1 then r.replicas else cap)]).map
        (fun p => p.1)).Nodup
      rw [List.map_append, List.nodup_append]
      refine ⟨hN, by simp, ?_⟩
      intro k hk hk2
      simp only [List.map_cons, List.map_nil, List.mem_singleton] at hk2
      rw [hk2] at hk
      exact hnotmem hk
    · intro v hv
      rw [show (HashRing.mk (sortByHash (r.nodes ++ (List.range (if cap < 1 then
        r.replicas else cap).toNat).map (fun i => VirtualNode.mk
        (hashKey (virtualNodeKey id i)) id i)))
        (r.nodeCapacity ++ [(id, if cap < 1 then r.replicas else cap)])
        (r.nodeAddress ++ [(id, addr)]) r.replicas).nodes = sortByHash (r.nodes ++
        (List.range (if cap < 1 then r.replicas else cap).toNat).map
        (fun i => VirtualNode.mk (hashKey (virtualNodeKey id i)) id i)) from rfl]
        at hv
      rw [mem_sortByHash, List.mem_append] at hv
      show v.nodeID ∈ (r.nodeCapacity ++ [(id, if cap < 1 then r.replicas else
        cap)]).map (fun p => p.1)
      rw [List.map_append, List.mem_append]
      rcases hv with hold | hnew
      · exact Or.inl (hOwn v hold)
      · obtain ⟨i, -, hvi⟩ := List.mem_map.mp hnew
        rw [← hvi]
        right
        simp
    · intro k hk
      have hk' : k ∈ (r.nodeCapacity ++ [(id, if cap < 1 then r.replicas else
          cap)]).map (fun p => p.1) := hk
      rw [List.map_append, List.mem_append] at hk'
      rcases hk' with hold | hnew
      · obtain ⟨v, hv, hvk⟩ := hHas k hold
        refine ⟨v, ?_, hvk⟩
        show v ∈ sortByHash (r.nodes ++ _)
        rw [mem_sortByHash, List.mem_append]
        exact Or.inl hv
      · simp only [List.map_cons, List.map_nil, List.mem_singleton] at hnew
        have hcap1 : 1 ≤ (if cap < 1 then r.replicas else cap) := by
          split
          · exact hRep
          next h => omega
        refine ⟨VirtualNode.mk (hashKey (virtualNodeKey id 0)) id 0, ?_, ?_⟩
        · show _ ∈ sortByHash (r.nodes ++ _)
          rw [mem_sortByHash, List.mem_append]
          right
          rw [List.mem_map]
          refine ⟨0, ?_, rfl⟩
          rw [List.mem_range]
          omega
        · exact hnew.symm

/-- `RemoveNode` preserves the ring invariant. -/
theorem removeNode_inv {r : HashRing} (hInv : RingInv r) (id : String) :
    RingInv (removeNode r id) := by
  obtain ⟨hN, hOwn, hHas, hRep⟩ := hInv
  unfold removeNode
  split
  next =>
    refine ⟨?_, ?_, ?_, hRep⟩
    · show ((eraseAssoc r.nodeCapacity id).map (fun p => p.1)).Nodup
      unfold eraseAssoc
      unfold ringKeys at hN
      exact List.Nodup.sublist
        ((List.filter_sublist r.nodeCapacity).map (fun p => p.1)) hN
    · intro v hv
      have hv' : v ∈ r.nodes.filter (fun v => v.nodeID != id) := hv
      rw [List.mem_filter, bne_iff_ne] at hv'
      obtain ⟨hvmem, hvne⟩ := hv'
      have hkeys := hOwn v hvmem
      show v.nodeID ∈ (eraseAssoc r.nodeCapacity id).map (fun p => p.1)
      unfold eraseAssoc
      rw [List.mem_map]
      obtain ⟨p, hp, hpk⟩ := List.mem_map.mp hkeys
      refine ⟨p, ?_, hpk⟩
      rw [List.mem_filter, bne_iff_ne]
      exact ⟨hp, by rw [hpk]; exact hvne⟩
    · intro k hk
      have hk' : k ∈ (eraseAssoc r.nodeCapacity id).map (fun p => p.1) := hk
      unfold eraseAssoc at hk'
      rw [List.mem_map] at hk'
      obtain ⟨p, hp, hpk⟩ := hk'
      rw [List.mem_filter, bne_iff_ne] at hp
      obtain ⟨hpmem, hpne⟩ := hp
      obtain ⟨v, hv, hvk⟩ := hHas k (List.mem_map.mpr ⟨p, hpmem, hpk⟩)
      refine ⟨v, ?_, hvk⟩
      show v ∈ r.nodes.filter (fun v => v.nodeID != id)
      rw [List.mem_filter, bne_iff_ne]
      refine ⟨hv, ?_⟩
      rw [hvk, ← hpk]
      exact hpne
  next => exact ⟨hN, hOwn, hHas, hRep⟩

/-- Reachable rings satisfy the invariant. -/
theorem ringReachable_inv {r : HashRing} (h : RingReachable r) : RingInv r := by
  obtain ⟨replicas, ops, hops⟩ := h
  rw [hops]
  clear hops
  induction ops using List.reverseRecOn with
  | nil => exact newHashRing_inv replicas
  | append_singleton ops op ih =>
    rw [runRingOps, List.foldl_append, List.foldl_cons, List.foldl_nil]
    cases op with
    | addNodeOp id cap addr => exact addNode_inv ih id cap addr
    | removeNodeOp id => exact removeNode_inv ih id

/-- Every element the collection loop returns is either from the
accumulator or the owner record at one of the visited offsets. -/
theorem collectNodes_mem_src {r : HashRing} {startIdx : Nat} {count : Int} :
    ∀ (is : List Nat) (acc : List NodeInfo) (x : NodeInfo),
      x ∈ collectNodes r startIdx count is acc →
      x ∈ acc ∨ ∃ i ∈ is, x = NodeInfo.mk (r.nodes.getD ((startIdx + i) % r.nodes.length) defaultVNode).nodeID ((lookupAssoc r.nodeAddress (r.nodes.getD ((startIdx + i) % r.nodes.length) defaultVNode).nodeID).getD ("")) := by
  intro is
  induction is with
  | nil =>
    intro acc x hx
    rw [collectNodes] at hx
    exact Or.inl (List.mem_reverse.mp hx)
  | cons i is ih =>
    intro acc x hx
    rw [collectNodes] at hx
    dsimp only at hx
    split at hx
    · split at hx
      · rcases ih acc x hx with h | ⟨j, hj, hjx⟩
        · exact Or.inl h
        · exact Or.inr ⟨j, List.mem_cons_of_mem i hj, hjx⟩
      · rcases ih _ x hx with h | ⟨j, hj, hjx⟩
        · rcases List.mem_cons.mp h with heq | hmem
          · exact Or.inr ⟨i, List.mem_cons_self i is, heq⟩
          · exact Or.inl hmem
        · exact Or.inr ⟨j, List.mem_cons_of_mem i hj, hjx⟩
    · rcases ih acc x hx with h | ⟨j, hj, hjx⟩
      · exact Or.inl h
      · exact Or.inr ⟨j, List.mem_cons_of_mem i hj, hjx⟩

/-- The collection loop never drops accumulator elements. -/
theorem collectNodes_mem_acc {r : HashRing} {startIdx : Nat} {count : Int} :
    ∀ (is : List Nat) (acc : List NodeInfo) (x : NodeInfo),
      x ∈ acc → x ∈ collectNodes r startIdx count is acc := by
  intro is
  induction is with
  | nil =>
    intro acc x hx
    rw [collectNodes]
    exact List.mem_reverse.mpr hx
  | cons i is ih =>
    intro acc x hx
    rw [collectNodes]
    dsimp only
    split
    · split
      · exact ih acc x hx
      · exact ih _ x (List.mem_cons_of_mem _ hx)
    · exact ih acc x hx

/-- The collection loop preserves distinctness of the collected owner
ids. -/
theorem collectNodes_nodup {r : HashRing} {startIdx : Nat} {count : Int} :
    ∀ (is : List Nat) (acc : List NodeInfo),
      (acc.map (fun x => x.nodeID)).Nodup →
      ((collectNodes r startIdx count is acc).map (fun x => x.nodeID)).Nodup := by
  intro is
  induction is with
  | nil =>
    intro acc hacc
    rw [collectNodes, List.map_reverse]
    exact List.nodup_reverse.mpr hacc
  | cons i is ih =>
    intro acc hacc
    rw [collectNodes]
    dsimp only
    split
    · split
      next hcont => exact ih acc hacc
      next hcont =>
        apply ih
        rw [List.map_cons, List.nodup_cons]
        refine ⟨?_, hacc⟩
        intro hmem
        exact hcont (List.contains_iff_exists_mem_beq.mpr
          ⟨_, hmem, by simp⟩)
    · exact ih acc hacc

/-- The collection loop caps the result length at `count`. -/
theorem collectNodes_length_le {r : HashRing} {startIdx : Nat} {count : Int} :
    ∀ (is : List Nat) (acc : List NodeInfo),
      ((acc.length : Int) ≤ count) →
      (((collectNodes r startIdx count is acc).length : Int) ≤ count) := by
  intro is
  induction is with
  | nil =>
    intro acc hacc
    rw [collectNodes, List.length_reverse]
    exact hacc
  | cons i is ih =>
    intro acc hacc
    rw [collectNodes]
    dsimp only
    split
    next hlt =>
      split
      · exact ih acc hacc
      · apply ih
        rw [List.length_cons]
        push_cast
        omega
    · exact ih acc hacc

/-- The collection loop never shrinks below the accumulator length. -/
theorem collectNodes_length_ge {r : HashRing} {startIdx : Nat} {count : Int} :
    ∀ (is : List Nat) (acc : List NodeInfo),
      acc.length ≤ (collectNodes r startIdx count is acc).length := by
  intro is
  induction is with
  | nil =>
    intro acc
    rw [collectNodes, List.length_reverse]
  | cons i is ih =>
    intro acc
    rw [collectNodes]
    dsimp only
    split
    · split
      · exact ih acc
      · calc acc.length ≤ acc.length + 1 := Nat.le_succ _
          _ = ((NodeInfo.mk (r.nodes.getD ((startIdx + i) % r.nodes.length) defaultVNode).nodeID ((lookupAssoc r.nodeAddress (r.nodes.getD ((startIdx + i) % r.nodes.length) defaultVNode).nodeID).getD ("")) :: acc)).length := by rw [List.length_cons]
          _ ≤ _ := ih _
    · exact ih acc

/-- Every visited offset's owner either appears in the result or the
result already reached `count` elements. -/
theorem collectNodes_covers {r : HashRing} {startIdx : Nat} {count : Int} :
    ∀ (is : List Nat) (acc : List NodeInfo) (i : Nat), i ∈ is →
      (∃ x ∈ collectNodes r startIdx count is acc, x.nodeID = (r.nodes.getD ((startIdx + i) % r.nodes.length) defaultVNode).nodeID) ∨
      (count ≤ ((collectNodes r startIdx count is acc).length : Int)) := by
  intro is
  induction is with
  | nil =>
    intro acc i hi
    cases hi
  | cons j is ih =>
    intro acc i hi
    rw [collectNodes]
    dsimp only
    rcases List.mem_cons.mp hi with heq | hmem
    · subst heq
      split
      next hlt =>
        split
        next hcont =>
          obtain ⟨y, hy, hyid⟩ := List.contains_iff_exists_mem_beq.mp hcont
          rw [List.mem_map] at hy
          obtain ⟨x, hx, hxy⟩ := hy
          left
          refine ⟨x, collectNodes_mem_acc is acc x hx, ?_⟩
          rw [hxy]
          exact (beq_iff_eq.mp hyid).symm
        next hcont =>
          left
          exact ⟨NodeInfo.mk (r.nodes.getD ((startIdx + i) % r.nodes.length) defaultVNode).nodeID ((lookupAssoc r.nodeAddress (r.nodes.getD ((startIdx + i) % r.nodes.length) defaultVNode).nodeID).getD ("")),
            collectNodes_mem_acc is (NodeInfo.mk (r.nodes.getD ((startIdx + i) % r.nodes.length) defaultVNode).nodeID ((lookupAssoc r.nodeAddress (r.nodes.getD ((startIdx + i) % r.nodes.length) defaultVNode).nodeID).getD ("")) :: acc) (NodeInfo.mk (r.nodes.getD ((startIdx + i) % r.nodes.length) defaultVNode).nodeID ((lookupAssoc r.nodeAddress (r.nodes.getD ((startIdx + i) % r.nodes.length) defaultVNode).nodeID).getD ("")))
              (List.mem_cons_self (NodeInfo.mk (r.nodes.getD ((startIdx + i) % r.nodes.length) defaultVNode).nodeID ((lookupAssoc r.nodeAddress (r.nodes.getD ((startIdx + i) % r.nodes.length) defaultVNode).nodeID).getD (""))) acc), rfl⟩
      next hlt =>
        right
        have hge := @collectNodes_length_ge r startIdx count is acc
        omega
    · split
      · split
        · exact ih acc i hmem
        · exact ih _ i hmem
      · exact ih acc i hmem

/-- With a nonempty accumulator the head of the result is the
accumulator's last element. -/
theorem collectNodes_head {r : HashRing} {startIdx : Nat} {count : Int} :
    ∀ (is : List Nat) (acc : List NodeInfo), acc ≠ [] →
      (collectNodes r startIdx count is acc).head? = acc.getLast? := by
  intro is
  induction is with
  | nil =>
    intro acc _
    rw [collectNodes]
    exact List.head?_reverse acc
  | cons i is ih =>
    intro acc hacc
    rw [collectNodes]
    dsimp only
    split
    · split
      · exact ih acc hacc
      · rcases acc with _ | ⟨a, acc'⟩
        · exact absurd rfl hacc
        · rw [ih _ (by simp), List.getLast?_cons_cons]
    · exact ih acc hacc

/-- The wrapped start index is in range whenever the ring is nonempty. -/
theorem ringStartIdx_lt {r : HashRing} (h : 0 < r.nodes.length) (hk : Nat) :
    ringStartIdx r hk < r.nodes.length := by
  unfold ringStartIdx
  dsimp only
  split
  · exact h
  · next hle => omega

/-- Every residue is hit by some clockwise offset. -/
theorem offset_surjective {n s j : Nat} (hn : 0 < n) (hj : j < n) :
    ∃ i ∈ List.range n, (s + i) % n = j := by
  refine ⟨(j + (n - s % n)) % n, List.mem_range.mpr (Nat.mod_lt _ hn), ?_⟩
  have h2 : s + (j + (n - s % n)) = j + n * (s / n + 1) := by
    have h3 := Nat.mod_add_div s n
    have h1 : s % n < n := Nat.mod_lt s hn
    rw [Nat.mul_add, Nat.mul_one]
    omega
  rw [Nat.add_mod_mod, h2, Nat.add_mul_mod_self_left, Nat.mod_eq_of_lt hj]

/-- One step of the collection loop from an empty accumulator with a
positive budget records the owner at the first visited offset. -/
theorem collectNodes_cons_nil {r : HashRing} {s : Nat} {m : Int} (hm : 0 < m)
    (i : Nat) (is : List Nat) :
    collectNodes r s m (i :: is) [] =
      collectNodes r s m is
        [NodeInfo.mk (r.nodes.getD ((s + i) % r.nodes.length) defaultVNode).nodeID
          ((lookupAssoc r.nodeAddress
            ((r.nodes.getD ((s + i) % r.nodes.length) defaultVNode).nodeID)).getD (""))] := by
  rw [collectNodes]
  dsimp only
  rw [if_pos (by exact_mod_cast hm), if_neg (by simp)]

/-- Ids in the collection result are registered node ids. -/
theorem getNodes_ids_subset {r : HashRing} (hInv : RingInv r) (key : String)
    (m : Int) : ∀ id ∈ (getNodes r key m).map (fun x => x.nodeID), id ∈ ringKeys r := by
  intro id hid
  rw [List.mem_map] at hid
  obtain ⟨x, hx, hxid⟩ := hid
  rw [getNodes] at hx
  split at hx
  · cases hx
  · next hne =>
    have hlen : 0 < r.nodes.length := Nat.pos_of_ne_zero hne
    rcases collectNodes_mem_src (List.range r.nodes.length) [] x hx with hacc | ⟨i, _, hxeq⟩
    · cases hacc
    · have hmem : r.nodes.getD ((ringStartIdx r (hashKey key) + i) % r.nodes.length)
          defaultVNode ∈ r.nodes :=
        getD_mem_of_lt (Nat.mod_lt _ hlen)
      rw [← hxid, hxeq]
      exact hInv.2.1 _ hmem

/-- Ids in the collection result are distinct. -/
theorem getNodes_ids_nodup (r : HashRing) (key : String) (m : Int) :
    ((getNodes r key m).map (fun x => x.nodeID)).Nodup := by
  rw [getNodes]
  split
  · simp
  · exact collectNodes_nodup (List.range r.nodes.length) [] (by simp)

/-- C7: on every reachable ring state, for every key and every count m ≥ 0,
`GetNodes` returns exactly min(m, number of physical nodes) entries, their
node ids are pairwise distinct, and when m ≥ 1 the first entry's id is the
id `GetNode` returns for the same key. -/
theorem successors_distinct_length_first {r : HashRing} (key : String) {m : Int}
    (hr : RingReachable r) (hm : 0 ≤ m) :
    (getNodes r key m).length = min m.toNat (getNodeCount r) ∧
    ((getNodes r key m).map (fun x => x.nodeID)).Nodup ∧
    (1 ≤ m → ((getNodes r key m).head?).map (fun x => x.nodeID) =
      (getNode r key).map (fun p => p.1)) := by
  obtain ⟨hN, hOwn, hHas, hRep⟩ := ringReachable_inv hr
  refine ⟨?_, getNodes_ids_nodup r key m, ?_⟩
  · by_cases hne : r.nodes.length = 0
    · have hcap : r.nodeCapacity = [] := by
        cases hcap : r.nodeCapacity with
        | nil => rfl
        | cons p ps =>
          exfalso
          have hidp : p.1 ∈ ringKeys r := by
            unfold ringKeys
            rw [hcap]
            exact List.mem_map_of_mem _ (List.mem_cons_self _ _)
          obtain ⟨v, hv, _⟩ := hHas p.1 hidp
          have hpos := List.length_pos_of_mem hv
          omega
      rw [getNodes, if_pos hne]
      unfold getNodeCount
      rw [hcap]
      simp
    · have hlen : 0 < r.nodes.length := Nat.pos_of_ne_zero hne
      have hres : getNodes r key m =
          collectNodes r (ringStartIdx r (hashKey key)) m
            (List.range r.nodes.length) [] := by
        rw [getNodes, if_neg hne]
      have hub1 : ((getNodes r key m).length : Int) ≤ m := by
        rw [hres]
        exact collectNodes_length_le (List.range r.nodes.length) [] (by simpa using hm)
      have hnd := getNodes_ids_nodup r key m
      have hsub : ((getNodes r key m).map (fun x => x.nodeID)) ⊆ ringKeys r :=
        fun id hid => getNodes_ids_subset ⟨hN, hOwn, hHas, hRep⟩ key m id hid
      have hub2 : (getNodes r key m).length ≤ getNodeCount r := by
        have h5 := (List.subperm_of_subset hnd hsub).length_le
        rw [List.length_map] at h5
        unfold ringKeys at h5
        rw [List.length_map] at h5
        unfold getNodeCount
        omega
      have hge : min m.toNat (getNodeCount r) ≤ (getNodes r key m).length := by
        by_contra hcon
        push_neg at hcon
        rw [lt_min_iff] at hcon
        obtain ⟨hltm, hltc⟩ := hcon
        have hmiss : ∃ id ∈ ringKeys r,
            id ∉ (getNodes r key m).map (fun x => x.nodeID) := by
          by_contra hall
          push_neg at hall
          have h5 := (List.subperm_of_subset hN (fun id hid => hall id hid)).length_le
          rw [List.length_map] at h5
          unfold ringKeys at h5
          rw [List.length_map] at h5
          unfold getNodeCount at hltc
          omega
        obtain ⟨id, hidk, hidn⟩ := hmiss
        obtain ⟨v, hv, hvid⟩ := hHas id hidk
        obtain ⟨⟨j, hj⟩, hget⟩ := List.mem_iff_get.mp hv
        obtain ⟨i, hirange, hmod⟩ :=
          @offset_surjective r.nodes.length (ringStartIdx r (hashKey key)) j hlen hj
        have hgd : r.nodes.getD
            ((ringStartIdx r (hashKey key) + i) % r.nodes.length) defaultVNode = v := by
          rw [hmod, List.getD_eq_getElem?_getD, List.getElem?_eq_getElem hj]
          simpa using hget
        have hcov := @collectNodes_covers r (ringStartIdx r (hashKey key)) m
          (List.range r.nodes.length) [] i hirange
        rcases hcov with ⟨x, hx, hxid⟩ | hfull
        · apply hidn
          rw [hres, List.mem_map]
          exact ⟨x, hx, by rw [hxid, hgd, hvid]⟩
        · rw [← hres] at hfull
          omega
      omega
  · intro hm1
    by_cases hne : r.nodes.length = 0
    · rw [getNodes, if_pos hne]
      unfold getNode
      rw [if_pos hne]
      rfl
    · have hlen : 0 < r.nodes.length := Nat.pos_of_ne_zero hne
      obtain ⟨n, hn⟩ : ∃ n, r.nodes.length = n + 1 := ⟨r.nodes.length - 1, by omega⟩
      have hs : ringStartIdx r (hashKey key) < r.nodes.length := ringStartIdx_lt hlen _
      rw [getNodes, if_neg hne, hn, List.range_succ_eq_map]
      rw [collectNodes_cons_nil (by omega) 0 (List.map Nat.succ (List.range n))]
      rw [collectNodes_head (List.map Nat.succ (List.range n)) _ (List.cons_ne_nil _ _)]
      have hmod : (ringStartIdx r (hashKey key) + 0) % r.nodes.length =
          ringStartIdx r (hashKey key) := by
        rw [Nat.add_zero, Nat.mod_eq_of_lt hs]
      rw [hmod]
      unfold getNode
      rw [if_neg hne]
      rfl

/-- Witness: the successor theorem applied to a concrete two-node ring. -/
theorem successors_distinct_length_first_witness :
    RingReachable ringW7 ∧ (0 : Int) ≤ 2 ∧
    ((getNodes ringW7 ("k") 2).length = min (Int.toNat 2) (getNodeCount ringW7) ∧
     ((getNodes ringW7 ("k") 2).map (fun x => x.nodeID)).Nodup ∧
     (1 ≤ (2 : Int) → ((getNodes ringW7 ("k") 2).head?).map (fun x => x.nodeID) =
       (getNode ringW7 ("k")).map (fun p => p.1))) :=
  ⟨⟨1, _, rfl⟩, by decide,
   successors_distinct_length_first ("k") ⟨1, _, rfl⟩ (by decide)⟩

/-- Looking up the marked address after `markConnectionUnhealthy`'s map
yields the stored connection with `healthy` cleared. -/
theorem lookupAssoc_mark_map :
    ∀ (l : List (String × ServerConnection)) (a : String),
      lookupAssoc (l.map
          (fun p => if p.1 = a then (p.1, { p.2 with healthy := false }) else p)) a
        = (lookupAssoc l a).map (fun conn => { conn with healthy := false }) := by
  intro l a
  induction l with
  | nil => rfl
  | cons p t ih =>
    rw [List.map_cons]
    by_cases hpa : p.1 = a
    · rw [if_pos hpa]
      unfold lookupAssoc
      rw [List.find?_cons_of_pos _ (by simp [hpa]),
        List.find?_cons_of_pos _ (by simp [hpa])]
      rfl
    · rw [if_neg hpa]
      unfold lookupAssoc at ih ⊢
      rw [List.find?_cons_of_neg _ (by simp [hpa]),
        List.find?_cons_of_neg _ (by simp [hpa])]
      exact ih

/-- After `markConnectionUnhealthy` on a present connection, the recorded
health flag reads `false`. -/
theorem healthOf_mark {c : SmartClient} {a : String} {conn : ServerConnection}
    (h : lookupAssoc c.connections a = some conn) :
    healthOf (markConnectionUnhealthy c a) a = some false := by
  unfold healthOf markConnectionUnhealthy
  dsimp only
  rw [lookupAssoc_mark_map c.connections a, h]
  rfl

set_option maxRecDepth 8000 in
/-- C2 (counterexample): a send whose only attempt gets a transport-level
success but an application-level `success=false` response nevertheless
flips the connection's health flag from `true` to `false`: `SendMessage`
runs `markConnectionUnhealthy` after every failed attempt, including
rejected responses. -/
theorem rejection_health_counterexample :
    healthOf clientX2 ("xa") = some true ∧
    envW2.rpc ("xa") = AttemptOutcome.response false ("rejected") ∧
    healthOf (sendMessage envW2 clientX2 ("k") ("s") ("m")).1 ("xa") = some false := by
  refine ⟨rfl, rfl, ?_⟩
  decide

/-- C2 (amended): within one send, an attempt on a present, healthy, dialled
connection whose RPC returns a response with `success=false` makes the loop
continue to the next successor, but — contrary to the specification — it
does NOT leave the health flag unchanged: `markConnectionUnhealthy` runs
after every failed attempt, so the connection's flag reads `false`
afterwards.  Only the claim's continuation half holds; rejected responses
are treated like transport errors for health purposes (with `lastErr`
reset to the nil error). -/
theorem rejected_response_marks_unhealthy {env : NetworkEnv} {node : NodeInfo}
    (rest : List NodeInfo) (lastErr : Option String) (i : Nat) {c : SmartClient}
    {conn : ServerConnection} {msg : String}
    (hconn : lookupAssoc c.connections node.address = some conn)
    (hhealthy : conn.healthy = true)
    (hclient : conn.hasClient = true)
    (hrpc : env.rpc node.address = AttemptOutcome.response false msg) :
    sendLoop env (node :: rest) c lastErr i =
      sendLoop env rest (markConnectionUnhealthy c node.address) none (i + 1) ∧
    healthOf (markConnectionUnhealthy c node.address) node.address = some false := by
  constructor
  · have hsend : sendToServer env c node.address = (c, Except.ok ⟨false, msg⟩) := by
      unfold sendToServer
      rw [hconn]
      dsimp only
      rw [if_neg (by rw [hhealthy]; exact fun h => Bool.noConfusion h),
        if_pos hclient, hrpc]
    rw [sendLoop, hsend]
    dsimp only
    rw [if_neg (by exact fun h => Bool.noConfusion h)]
  · exact healthOf_mark hconn

/-- Witness: the amended health theorem applied to the concrete one-server
client, with the rejecting environment. -/
theorem rejected_response_marks_unhealthy_witness :
    lookupAssoc clientX2.connections (NodeInfo.mk ("a") ("xa")).address = some connW2 ∧
    connW2.healthy = true ∧ connW2.hasClient = true ∧
    envW2.rpc (NodeInfo.mk ("a") ("xa")).address =
      AttemptOutcome.response false ("rejected") ∧
    (sendLoop envW2 [NodeInfo.mk ("a") ("xa")] clientX2 none 0 =
        sendLoop envW2 []
          (markConnectionUnhealthy clientX2 (NodeInfo.mk ("a") ("xa")).address)
          none (0 + 1) ∧
      healthOf (markConnectionUnhealthy clientX2 (NodeInfo.mk ("a") ("xa")).address)
        (NodeInfo.mk ("a") ("xa")).address = some false) :=
  ⟨rfl, rfl, rfl, rfl,
    rejected_response_marks_unhealthy [] none 0 rfl rfl rfl rfl⟩

/-- C1 (counterexample): `GetCacheInfo` builds `L1Chats`/`L2Chats` by
ranging over the tier maps, whose iteration order Go leaves undefined, so a
snapshot of a reachable state with LRU list `[b, a]` may legitimately
report `[a, b]` — the id lists need not match the LRU recency order. -/
theorem snapshot_order_counterexample :
    Reachable (newHierarchicalCache ("s") 2 3) cacheX1 ∧
    admissibleCacheInfo cacheX1 infoX1 ∧
    infoX1.l1Chats ≠ l1Ids cacheX1 :=
  ⟨⟨1, [CacheOp.getOrCreateOp 0 ("a"), CacheOp.getOrCreateOp 0 ("b")], rfl⟩,
   ⟨[("a"), ("b")], [], by decide, by decide, rfl⟩,
   by decide⟩

/-- C1 (amended): for every reachable cache state, every snapshot
`GetCacheInfo` can return lists each tier's ids exactly once — `l1Chats`
and `l2Chats` are duplicate-free, have the tiers' sizes, and contain
precisely the ids resident in L1 and L2 respectively — but in an
unspecified order (Go map iteration), not necessarily the LRU recency
order. -/
theorem snapshot_ids_amended {sid : String} {cap1 cap2 : Int}
    {c : HierarchicalCache} {info : CacheInfo}
    (hr : Reachable (newHierarchicalCache sid cap1 cap2) c)
    (hadm : admissibleCacheInfo c info) :
    info.l1Chats.Nodup ∧ info.l1Chats.length = c.l1.length ∧
    (∀ id, id ∈ info.l1Chats ↔ id ∈ l1Ids c) ∧
    info.l2Chats.Nodup ∧ info.l2Chats.length = c.l2.length ∧
    (∀ id, id ∈ info.l2Chats ↔ id ∈ l2Ids c) ∧
    info.l1Size = c.l1.length ∧ info.l2Size = c.l2.length := by
  obtain ⟨⟨-, ⟨hN1, hN2, -⟩, -, -⟩, -, -, -⟩ := reachable_inv hr
  obtain ⟨o1, o2, hp1, hp2, heq⟩ := hadm
  subst heq
  unfold getCacheInfoWith
  dsimp only
  have hN1q : (l1Ids c).Nodup := hN1
  have hN2q : (l2Ids c).Nodup := hN2
  refine ⟨hp1.nodup_iff.mpr hN1q, ?_, fun id => hp1.mem_iff, hp2.nodup_iff.mpr hN2q,
    ?_, fun id => hp2.mem_iff, rfl, rfl⟩
  · rw [hp1.length_eq]
    unfold l1Ids keysOf
    exact List.length_map _ _
  · rw [hp2.length_eq]
    unfold l2Ids keysOf
    exact List.length_map _ _

/-- Witness: the amended snapshot theorem applied to the concrete reachable
state `cacheX1` and the out-of-recency-order snapshot `infoX1`. -/
theorem snapshot_ids_amended_witness :
    Reachable (newHierarchicalCache ("s") 2 3) cacheX1 ∧
    admissibleCacheInfo cacheX1 infoX1 ∧
    (infoX1.l1Chats.Nodup ∧ infoX1.l1Chats.length = cacheX1.l1.length ∧
     (∀ id, id ∈ infoX1.l1Chats ↔ id ∈ l1Ids cacheX1) ∧
     infoX1.l2Chats.Nodup ∧ infoX1.l2Chats.length = cacheX1.l2.length ∧
     (∀ id, id ∈ infoX1.l2Chats ↔ id ∈ l2Ids cacheX1) ∧
     infoX1.l1Size = cacheX1.l1.length ∧ infoX1.l2Size = cacheX1.l2.length) :=
  ⟨⟨1, [CacheOp.getOrCreateOp 0 ("a"), CacheOp.getOrCreateOp 0 ("b")], rfl⟩,
   ⟨[("a"), ("b")], [], by decide, by decide, rfl⟩,
   @snapshot_ids_amended ("s") 2 3 cacheX1 infoX1
     ⟨1, [CacheOp.getOrCreateOp 0 ("a"), CacheOp.getOrCreateOp 0 ("b")], rfl⟩
     ⟨[("a"), ("b")], [], by decide, by decide, rfl⟩⟩
